import Mathlib

/-!
Verification of the `distributed-queue` subsystem of the
`mcastellin/golang-mastery` repository against its natural-language
specification.

The Go sources are shallowly embedded: machine integers become `Nat`/`Int`
(with explicit truncation where byte overflow matters), Go maps become
association lists, time instants become integer nanosecond counts, and the
stateful worker loops become explicit state-passing functions.  Each claim of
the specification is stated and settled as a theorem about these embeddings.

The file is organised as definitions first (the embedding), then theorems
(helper lemmas followed by one theorem per claim, with witnesses and
counterexamples where required).
-/

namespace DQ

/-- Association-list lookup, modelling a Go map read `m[k]`. -/
def alookup {α β : Type} [DecidableEq α] (k : α) : List (α × β) → Option β
  | [] => none
  | (k2, v2) :: rest => if k2 = k then some v2 else alookup k rest

/-- Association-list insert, modelling a Go map write `m[k] = v`. -/
def ainsert {α β : Type} [DecidableEq α] (k : α) (v : β) : List (α × β) → List (α × β)
  | [] => [(k, v)]
  | (k2, v2) :: rest => if k2 = k then (k, v) :: rest else (k2, v2) :: ainsert k v rest

namespace Wait

/-- Model of `wait.BackoffStrategy` (distributed-queue/pkg/wait/backoff.go).
Durations and time instants are integer nanosecond counts.  The field names
follow the Go struct; the float32 `factor` field is not stored in the record
but passed explicitly (as an exact dyadic rational) to the `Backoff` model
below, since every float32 value is a dyadic rational. -/
structure BackoffStrategy where
  initialDuration : Int
  durationCap : Int
  duration : Int
  nextActivation : Int
deriving DecidableEq

/-- Embedding of `BackoffStrategy.Active` from pkg/wait/backoff.go:
`return time.Now().After(s.nextActivation)`.  Go's `t.After(u)` holds exactly
when `t > u`, so the method returns true when the current instant is strictly
later than `nextActivation`. -/
def BackoffStrategy.Active (s : BackoffStrategy) (now : Int) : Bool :=
  s.nextActivation < now

/-- Embedding of `BackoffStrategy.Reset`: duration becomes 0 and
`nextActivation` becomes the current instant. -/
def BackoffStrategy.Reset (s : BackoffStrategy) (now : Int) : BackoffStrategy :=
  { s with duration := 0, nextActivation := now }

/-- Fuel-driven floor of the base-2 logarithm of a natural number
(`natLog2F fuel n = 0` for `n < 2`, else one more than the value at `n / 2`).
Structural recursion on the fuel keeps the function kernel-reducible. -/
def natLog2F : Nat → Nat → Nat
  | 0, _ => 0
  | fuel+1, n => if n < 2 then 0 else natLog2F fuel (n / 2) + 1

/-- Floor of the base-2 logarithm of a natural number; the recursion depth is
at most `Nat.log2 n + 1 ≤ n`, so `n` itself is enough fuel. -/
def natLog2 (n : Nat) : Nat := natLog2F n n

/-- Round-to-nearest, ties-to-even division of an integer by `2 ^ k`: the
rounding step prescribed by IEEE 754 for binary floating point.  Computed from
the floor quotient and remainder, which handles both signs uniformly. -/
def rheDiv (n : Int) (k : Nat) : Int :=
  if 2 * Int.emod n (2^k) < 2^k then Int.ediv n (2^k)
  else if (2^k : Int) < 2 * Int.emod n (2^k) then Int.ediv n (2^k) + 1
  else if Int.ediv n (2^k) % 2 = 0 then Int.ediv n (2^k) else Int.ediv n (2^k) + 1

/-- Division of an integer by `2 ^ k` truncated toward zero: the rounding Go
applies when converting a floating-point value to an integer type. -/
def truncShift (n : Int) (k : Nat) : Int :=
  if 0 ≤ n then ((n.toNat / 2^k : Nat) : Int) else -(((-n).toNat / 2^k : Nat) : Int)

/-- IEEE 754 binary32 (Go `float32`) rounding of the dyadic rational
`n * 2 ^ e`, in round-to-nearest-even mode, returned again as a dyadic pair.
The unit in the last place is `2 ^ g` with
`g = max (floor (log2 |n * 2 ^ e|) - 23) (-149)`: 24 significand bits for
normal values, with subnormals bottoming out at `2 ^ (-149)`.  Values already
a multiple of the ulp (in particular every integer below `2 ^ 24`) are exact;
overflow to infinity is not modelled, as every duration fits far below the
float32 maximum. -/
def f32round (n e : Int) : Int × Int :=
  if n = 0 then (0, 0)
  else
    if max ((natLog2 n.natAbs : Int) + e - 23) (-149) ≤ e then
      (n * 2^((e - max ((natLog2 n.natAbs : Int) + e - 23) (-149)).toNat),
        max ((natLog2 n.natAbs : Int) + e - 23) (-149))
    else
      (rheDiv n ((max ((natLog2 n.natAbs : Int) + e - 23) (-149) - e).toNat),
        max ((natLog2 n.natAbs : Int) + e - 23) (-149))

/-- Go conversion `float32(d)` of an integer duration: round-to-nearest-even
into binary32. -/
def f32ofInt64 (d : Int) : Int × Int := f32round d 0

/-- Go `float32` multiplication: the exact product of the two dyadic operands,
rounded once into binary32 (the Go spec requires each float32 operation to be
correctly rounded to float32 precision). -/
def f32mulD (a b : Int × Int) : Int × Int := f32round (a.1 * b.1) (a.2 + b.2)

/-- Go conversion `time.Duration(f)` of a float32 value: discard the
fractional part, truncating toward zero. -/
def f32toInt64 (a : Int × Int) : Int :=
  if 0 ≤ a.2 then a.1 * 2^(a.2.toNat) else truncShift a.1 ((-a.2).toNat)

/-- The duration computed by one `Backoff()` call from pkg/wait/backoff.go:
`s.duration = s.initialDuration + time.Duration(float32(s.duration)*s.factor)`
followed by the clamp `if s.duration > s.durationCap { s.duration =
s.durationCap }`.  The float32 factor is passed as an exact dyadic pair. -/
def backoffDuration (base cap : Int) (f : Int × Int) (d : Int) : Int :=
  if cap < base + f32toInt64 (f32mulD (f32ofInt64 d) f) then cap
  else base + f32toInt64 (f32mulD (f32ofInt64 d) f)

/-- Embedding of `BackoffStrategy.Backoff`: the duration is updated as in
`backoffDuration` and `nextActivation` becomes `time.Now().Add(s.duration)`
with the updated duration. -/
def BackoffStrategy.Backoff (s : BackoffStrategy) (f : Int × Int) (now : Int) :
    BackoffStrategy :=
  { s with
    duration := backoffDuration s.initialDuration s.durationCap f s.duration,
    nextActivation :=
      now + backoffDuration s.initialDuration s.durationCap f s.duration }

/-- The duration after `N` consecutive `Backoff()` calls starting from a reset
strategy (`duration = 0`), for given base, cap and float32 factor. -/
def backoffIter (base cap : Int) (f : Int × Int) : Nat → Int
  | 0 => 0
  | n+1 => backoffDuration base cap f (backoffIter base cap f n)

end Wait

namespace Db

/-- Model of `db.ShardMeta` (distributed-queue/pkg/db/sharding.go).  The
`*sql.DB` connection handle carries no queryable state in the embedding. -/
structure ShardMeta where
  Id : Nat
  ConnString : String
  main : Bool
deriving DecidableEq

/-- Model of `db.ShardManager`: the ordered shard list plus the id index. -/
structure ShardManager where
  shards : List ShardMeta
  index : List (Nat × ShardMeta)
deriving DecidableEq

/-- A `ShardManager` before any `Add` call: both fields empty (the Go zero
value has a nil slice and a nil map). -/
def ShardManager.empty : ShardManager := ⟨[], []⟩

/-- Embedding of a successful `ShardManager.Add` (pkg/db/sharding.go): build
the `ShardMeta`, append it to `shards`, and index it by id.  The error paths
(`sql.Open` failure, `initialize` failure) leave the manager unchanged and are
outside the "successful call" scope of the claims. -/
def ShardManager.Add (m : ShardManager) (shardId : Nat) (main : Bool)
    (connString : String) : ShardMeta × ShardManager :=
  let meta : ShardMeta := ⟨shardId, connString, main⟩
  (meta, ⟨m.shards ++ [meta], ainsert shardId meta m.index⟩)

/-- Embedding of `ShardManager.MainShard`: first shard flagged main, if any. -/
def ShardManager.MainShard (m : ShardManager) : Option ShardMeta :=
  m.shards.find? (·.main)

/-- Embedding of `ShardManager.Get`. -/
def ShardManager.Get (m : ShardManager) (id : Nat) : Option ShardMeta :=
  alookup id m.index

/-- The arguments of one `Add` call. -/
structure AddCall where
  shardId : Nat
  main : Bool
  connString : String
deriving DecidableEq

/-- The `ShardMeta` recorded by `Add` for a given call. -/
def AddCall.meta (c : AddCall) : ShardMeta := ⟨c.shardId, c.connString, c.main⟩

/-- Run a sequence of successful `Add` calls against a manager. -/
def applyAdds (m : ShardManager) : List AddCall → ShardManager
  | [] => m
  | c :: rest => applyAdds (m.Add c.shardId c.main c.connString).2 rest

/-- A row of the `messages` table (schema in distributed-queue/db/init.sql):
the 16-byte BYTEA primary key is modelled as a `Nat` (bytewise comparison of
equal-length byte strings is numeric comparison of their big-endian values),
payload/metadata as opaque numbers, timestamps as integer nanosecond counts. -/
structure MessageRow where
  id : Nat
  topic : String
  priority : Nat
  payload : Nat
  metadata : Nat
  readyat : Int
  expiresat : Int
  prefetched : Bool
deriving DecidableEq

/-- The `ORDER BY priority` comparison (ascending). -/
def prioLE (a b : MessageRow) : Prop := a.priority ≤ b.priority

instance : DecidableRel prioLE := fun a b => inferInstanceAs (Decidable (a.priority ≤ b.priority))

instance : IsTotal MessageRow prioLE := ⟨fun a b => Nat.le_total a.priority b.priority⟩

instance : IsTrans MessageRow prioLE := ⟨fun _ _ _ => Nat.le_trans⟩

/-- The WHERE clause of `FindMessagesReadyForDelivery`:
`readyat <= $1 AND expiresat > $1 AND prefetched = $2 AND NOT topic = ANY($3)`. -/
def readyPred (now : Int) (prefetched : Bool) (excludedTopics : List String)
    (m : MessageRow) : Bool :=
  decide (m.readyat ≤ now) && decide (now < m.expiresat) &&
    (m.prefetched == prefetched) && !(decide (m.topic ∈ excludedTopics))

/-- `ROW_NUMBER() OVER (PARTITION BY topic ORDER BY id)` of row `m` within
the candidate set `l`: one plus the number of candidate rows of the same
topic with a smaller id (ids are unique, being the primary key). -/
def rowNumber (l : List MessageRow) (m : MessageRow) : Nat :=
  1 + List.countP (fun x => x.topic == m.topic && decide (x.id < m.id)) l

/-- `defaultLimitRows` from pkg/db/repository.go. -/
def defaultLimitRows : Nat := 100

/-- Embedding of `MessageRepository.FindMessagesReadyForDelivery`
(pkg/db/repository.go): filter by the WHERE clause, order by priority
ascending (the CTE's `ORDER BY`), keep rows whose per-topic rank is at most
`maxRowsByTopic`, and apply the overall `LIMIT`. -/
def findMessagesReadyForDelivery (table : List MessageRow) (now : Int) (prefetched : Bool)
    (excludedTopics : List String) (maxRowsByTopic : Nat) (limit : Nat) : List MessageRow :=
  let cand := table.filter (readyPred now prefetched excludedTopics)
  let ordered := List.insertionSort prioLE cand
  (ordered.filter (fun m => rowNumber cand m ≤ maxRowsByTopic)).take limit

/-- Embedding of `MessageRepository.AckNack` (pkg/db/repository.go):
on ack, `DELETE FROM messages WHERE id = $1`; on nack,
`UPDATE messages SET prefetched = false WHERE id = $1`. -/
def ackNack (table : List MessageRow) (uid : Nat) (ack : Bool) : List MessageRow :=
  if ack then table.filter (fun m => !(m.id == uid))
  else table.map (fun m => if m.id = uid then { m with prefetched := false } else m)

/-- A default row used only as the `getD` fallback in theorem statements. -/
def defaultRow : MessageRow := ⟨0, "", 0, 0, 0, 0, 0, false⟩

end Db

namespace Domain

/-- The base32-hex alphabet of the `rs/xid` library
(`0123456789abcdefghijklmnopqrstuv`). -/
def b32Alphabet : List Char := "0123456789abcdefghijklmnopqrstuv".toList

/-- Encoding table lookup `encoding[v]` of the xid library. -/
def b32Char (v : Nat) : Char := b32Alphabet.getD v '0'

/-- Decoding table lookup `dec[c]` of the xid library: the index of `c` in
the alphabet, or `0xFF` for a character outside the alphabet. -/
def b32Dec (c : Char) : Nat :=
  match b32Alphabet.findIdx? (· == c) with
  | some i => i
  | none => 255

/-- The twenty 5-bit values produced by the xid `encode` routine from the
twelve id bytes; each line transcribes one `dst[i] = encoding[...]`
assignment (Go byte shifts that are immediately masked by `&0x1F` need no
mod-256 truncation, because the mask keeps only low bits). -/
def xidEncVals : List Nat → List Nat
  | [b0, b1, b2, b3, b4, b5, b6, b7, b8, b9, b10, b11] =>
    [ b0 >>> 3,
      (b1 >>> 6) ||| ((b0 <<< 2) &&& 31),
      (b1 >>> 1) &&& 31,
      ((b2 >>> 4) &&& 31) ||| ((b1 <<< 4) &&& 31),
      (b3 >>> 7) ||| ((b2 <<< 1) &&& 31),
      (b3 >>> 2) &&& 31,
      (b4 >>> 5) ||| ((b3 <<< 3) &&& 31),
      b4 &&& 31,
      b5 >>> 3,
      (b6 >>> 6) ||| ((b5 <<< 2) &&& 31),
      (b6 >>> 1) &&& 31,
      ((b7 >>> 4) &&& 31) ||| ((b6 <<< 4) &&& 31),
      (b8 >>> 7) ||| ((b7 <<< 1) &&& 31),
      (b8 >>> 2) &&& 31,
      (b9 >>> 5) ||| ((b8 <<< 3) &&& 31),
      b9 &&& 31,
      b10 >>> 3,
      (b11 >>> 6) ||| ((b10 <<< 2) &&& 31),
      (b11 >>> 1) &&& 31,
      (b11 <<< 4) &&& 31 ]
  | _ => []

/-- The 20-character string form of a 12-byte xid. -/
def xidChars (id : List Nat) : List Char := (xidEncVals id).map b32Char

/-- The xid `UnmarshalText`/`decode` routine: length check, character-validity
check, the byte equations (each a transcription of one `id[i] = dec[...]`
line, with `% 256` for Go byte truncation), and the trailing-bits check that
re-encodes the last character from the decoded `id[11]`. -/
def xidDecode (src : List Char) : Option (List Nat) :=
  match src with
  | [c0, c1, c2, c3, c4, c5, c6, c7, c8, c9, c10, c11, c12, c13, c14, c15, c16, c17, c18, c19] =>
    if b32Dec c0 = 255 ∨ b32Dec c1 = 255 ∨ b32Dec c2 = 255 ∨ b32Dec c3 = 255 ∨
       b32Dec c4 = 255 ∨ b32Dec c5 = 255 ∨ b32Dec c6 = 255 ∨ b32Dec c7 = 255 ∨
       b32Dec c8 = 255 ∨ b32Dec c9 = 255 ∨ b32Dec c10 = 255 ∨ b32Dec c11 = 255 ∨
       b32Dec c12 = 255 ∨ b32Dec c13 = 255 ∨ b32Dec c14 = 255 ∨ b32Dec c15 = 255 ∨
       b32Dec c16 = 255 ∨ b32Dec c17 = 255 ∨ b32Dec c18 = 255 ∨ b32Dec c19 = 255 then
      none
    else
      let id11 := ((b32Dec c17 <<< 6) % 256) ||| ((b32Dec c18 <<< 1) % 256) ||| (b32Dec c19 >>> 4)
      if b32Char ((id11 <<< 4) &&& 31) ≠ c19 then none
      else some
        [ ((b32Dec c0 <<< 3) % 256) ||| (b32Dec c1 >>> 2),
          ((b32Dec c1 <<< 6) % 256) ||| ((b32Dec c2 <<< 1) % 256) ||| (b32Dec c3 >>> 4),
          ((b32Dec c3 <<< 4) % 256) ||| (b32Dec c4 >>> 1),
          ((b32Dec c4 <<< 7) % 256) ||| ((b32Dec c5 <<< 2) % 256) ||| (b32Dec c6 >>> 3),
          ((b32Dec c6 <<< 5) % 256) ||| b32Dec c7,
          ((b32Dec c8 <<< 3) % 256) ||| (b32Dec c9 >>> 2),
          ((b32Dec c9 <<< 6) % 256) ||| ((b32Dec c10 <<< 1) % 256) ||| (b32Dec c11 >>> 4),
          ((b32Dec c11 <<< 4) % 256) ||| (b32Dec c12 >>> 1),
          ((b32Dec c12 <<< 7) % 256) ||| ((b32Dec c13 <<< 2) % 256) ||| (b32Dec c14 >>> 3),
          ((b32Dec c14 <<< 5) % 256) ||| b32Dec c15,
          ((b32Dec c16 <<< 3) % 256) ||| (b32Dec c17 >>> 2),
          id11 ]
  | _ => none

/-- Decimal digit to character, as Go fmt renders base-10 numbers. -/
def decDigitChar (d : Nat) : Char := Char.ofNat (48 + d)

/-- Decimal rendering of a natural number, most significant digit first,
modelling the `%d` verb of Go `fmt.Sprintf` for an unsigned value. -/
def natDecChars (n : Nat) : List Char :=
  if n = 0 then ['0'] else (Nat.digits 10 n).reverse.map decDigitChar

/-- Model of Go `strconv.Atoi` restricted to the unsigned inputs produced by
`UUID.String`: the value for a nonempty all-digit string, `none` otherwise
(sign handling and 64-bit overflow cannot arise on those inputs). -/
def goAtoi (s : List Char) : Option Nat :=
  if s = [] then none
  else if s.all Char.isDigit then
    some (s.foldl (fun acc c => 10 * acc + (c.toNat - 48)) 0)
  else none

/-- Model of Go `strings.Split(v, "-")`. -/
def splitOnDash : List Char → List (List Char)
  | [] => [[]]
  | c :: rest =>
    if c = '-' then [] :: splitOnDash rest
    else
      match splitOnDash rest with
      | [] => [[c]]
      | t :: ts => (c :: t) :: ts

/-- Model of `binary.BigEndian.Uint32` on a four-byte slice:
`b[3] | b[2]<<8 | b[1]<<16 | b[0]<<24`. -/
def beUint32 (b : List Nat) : Nat :=
  b.getD 3 0 ||| (b.getD 2 0 <<< 8) ||| (b.getD 1 0 <<< 16) ||| (b.getD 0 0 <<< 24)

/-- Model of `binary.BigEndian.PutUint32`: big-endian byte decomposition,
with `byte(v >> k)` rendered as `(v >>> k) % 256`. -/
def bePutUint32 (v : Nat) : List Nat :=
  [(v >>> 24) % 256, (v >>> 16) % 256, (v >>> 8) % 256, v % 256]

/-- A UUID is sixteen bytes: four shard-id bytes followed by twelve xid
bytes (pkg/domain/domain.go). -/
abbrev UUID := List Nat

/-- Embedding of `domain.NewUUID`: big-endian shard id in the first four
bytes, then the twelve bytes of a freshly generated xid.  The xid generator
draws on wall-clock time and process state, so its output is passed in as a
parameter. -/
def NewUUID (shardId : Nat) (xb : List Nat) : UUID := bePutUint32 shardId ++ xb

/-- Embedding of `UUID.ShardId`: big-endian decode of the first four bytes. -/
def ShardId (u : UUID) : Nat := beUint32 (List.take 4 u)

/-- Embedding of `UUID.String`: `fmt.Sprintf("%d-%s", u.ShardId(), u.XID())`. -/
def uuidString (u : UUID) : List Char :=
  natDecChars (ShardId u) ++ '-' :: xidChars (List.drop 4 u)

/-- Embedding of `domain.ParseUUID`: split on `-`, require exactly two
tokens, parse the decimal shard id, decode the xid token, and reassemble;
`uint32(sid)` is the truncation `% 2^32`. -/
def ParseUUID (s : List Char) : Option UUID :=
  match splitOnDash s with
  | [t0, t1] =>
    match goAtoi t0, xidDecode t1 with
    | some sid, some xb => some (bePutUint32 (sid % 2^32) ++ xb)
    | _, _ => none
  | _ => none

end Domain

namespace Prefetch

structure Message where
  id : Nat
  topic : String
  priority : Nat
  payload : Nat
  metadata : Nat
deriving DecidableEq

def defaultMsg : Message := ⟨0, "", 0, 0, 0⟩

abbrev MsgHeap := List Message

def hget (h : MsgHeap) (i : Nat) : Message := h.getD i defaultMsg

def hswap (h : MsgHeap) (i j : Nat) : MsgHeap :=
  (h.set i (hget h j)).set j (hget h i)

def hless (h : MsgHeap) (i j : Nat) : Bool :=
  decide ((hget h i).priority < (hget h j).priority)

def upAux : Nat → MsgHeap → Nat → MsgHeap
  | 0, h, _ => h
  | fuel+1, h, j =>
    if (j - 1) / 2 = j ∨ ¬ hless h j ((j - 1) / 2) then h
    else upAux fuel (hswap h ((j - 1) / 2) j) ((j - 1) / 2)

def up (h : MsgHeap) (j : Nat) : MsgHeap := upAux j h j

/-- The index of the smaller child of `i` among the first `n` entries (the
`j` computed inside one iteration of `down`). -/
def childSel (h : MsgHeap) (i n : Nat) : Nat :=
  if 2*i + 2 < n ∧ hless h (2*i + 2) (2*i + 1) then 2*i + 2 else 2*i + 1

def downAux : Nat → MsgHeap → Nat → Nat → MsgHeap
  | 0, h, _, _ => h
  | fuel+1, h, i, n =>
    if 2*i + 1 ≥ n then h
    else if ¬ hless h (childSel h i n) i then h
    else downAux fuel (hswap h i (childSel h i n)) (childSel h i n) n

def down (h : MsgHeap) (i n : Nat) : MsgHeap := downAux n h i n

def heapPush (h : MsgHeap) (m : Message) : MsgHeap := up (h ++ [m]) h.length

def heapPop (h : MsgHeap) : Message × MsgHeap :=
  let n := h.length - 1
  let h1 := hswap h 0 n
  let h2 := down h1 0 n
  (hget h2 n, h2.take n)

-- buffers and the serve-loop operations

abbrev Buffers := List (String × MsgHeap)

inductive PrefetchResponseStatus
  | ok
  | backoff
deriving DecidableEq

def MaxPrefetchItemCount : Nat := 100

def defaultDequeueLimitPerTopic : Int := 20

structure GetItemsRequest where
  Namespace : String
  Topic : String
  Limit : Int
deriving DecidableEq

structure GetItemsResponse where
  Messages : List Message
deriving DecidableEq

def lookupOrNew (bufs : Buffers) (t : String) : MsgHeap × Buffers :=
  match alookup t bufs with
  | some hp => (hp, bufs)
  | none => ([], ainsert t [] bufs)

def ingestStep (bufs : Buffers) (msg : Message) : PrefetchResponseStatus × Buffers :=
  if (lookupOrNew bufs msg.topic).1.length < MaxPrefetchItemCount then
    (PrefetchResponseStatus.ok,
      ainsert msg.topic (heapPush (lookupOrNew bufs msg.topic).1 msg)
        (lookupOrNew bufs msg.topic).2)
  else
    (PrefetchResponseStatus.backoff, (lookupOrNew bufs msg.topic).2)

def processIngest (bufs : Buffers) : List Message → List PrefetchResponseStatus × Buffers
  | [] => ([], bufs)
  | msg :: rest =>
    ((ingestStep bufs msg).1 :: (processIngest (ingestStep bufs msg).2 rest).1,
     (processIngest (ingestStep bufs msg).2 rest).2)

def popLoop (h : MsgHeap) : Nat → List Message × MsgHeap
  | 0 => ([], h)
  | k+1 =>
    ((heapPop h).1 :: (popLoop (heapPop h).2 k).1, (popLoop (heapPop h).2 k).2)

def effLimit (req : GetItemsRequest) : Int :=
  if req.Limit = 0 then defaultDequeueLimitPerTopic else req.Limit

def popCount (tHeap : MsgHeap) (req : GetItemsRequest) : Int :=
  min (tHeap.length : Int) (effLimit req)

def processGetItems (bufs : Buffers) (req : GetItemsRequest) :
    Option (GetItemsResponse × Buffers) :=
  match alookup req.Topic bufs with
  | none => some (⟨[]⟩, bufs)
  | some tHeap =>
    if popCount tHeap req < 0 then none
    else some (⟨(popLoop tHeap (popCount tHeap req).toNat).1⟩,
      ainsert req.Topic (popLoop tHeap (popCount tHeap req).toNat).2 bufs)

inductive Reachable : Buffers → Prop
  | init : Reachable []
  | ingest (bufs : Buffers) (batch : List Message) :
      Reachable bufs → Reachable (processIngest bufs batch).2
  | getItems (bufs : Buffers) (req : GetItemsRequest)
      (res : GetItemsResponse) (bufs2 : Buffers) :
      Reachable bufs → processGetItems bufs req = some (res, bufs2) → Reachable bufs2

def Bounded (bufs : Buffers) : Prop :=
  ∀ p ∈ bufs, p.2.length ≤ MaxPrefetchItemCount

/-- The min-heap property on the first `n` entries: every non-root node is at
least its parent (priorities compared, as in `msgHeap.Less`). -/
def IsHeapOn (h : MsgHeap) (n : Nat) : Prop :=
  ∀ j, 0 < j → j < n → (hget h ((j-1)/2)).priority ≤ (hget h j).priority

def IsHeap (h : MsgHeap) : Prop := IsHeapOn h h.length

/-- Invariant maintained by the `down` loop: the heap property holds on the
first `n` entries except possibly on the edges from `i` to its children, and
(when `i` is not the root) `i`'s parent already bounds `i`'s children. -/
def DownInv (h : MsgHeap) (i n : Nat) : Prop :=
  (∀ c, 0 < c → c < n → (c-1)/2 ≠ i →
    (hget h ((c-1)/2)).priority ≤ (hget h c).priority) ∧
  (0 < i → ∀ c, c < n → (c = 2*i+1 ∨ c = 2*i+2) →
    (hget h ((i-1)/2)).priority ≤ (hget h c).priority)

/-- Invariant maintained by the `up` loop: the heap property holds on the
first `n` entries except possibly on the edge into `j`, and (when `j` is not
the root) `j`'s parent already bounds `j`'s children. -/
def UpInv (h : MsgHeap) (n j : Nat) : Prop :=
  (∀ c, 0 < c → c < n → c ≠ j →
    (hget h ((c-1)/2)).priority ≤ (hget h c).priority) ∧
  (0 < j → ∀ c, c < n → (c = 2*j+1 ∨ c = 2*j+2) →
    (hget h ((j-1)/2)).priority ≤ (hget h c).priority)

-- all reachable heaps satisfy the heap-order invariant

def AllHeapsGood (bufs : Buffers) : Prop := ∀ p ∈ bufs, IsHeap p.2

end Prefetch

namespace Queue

/-- Embedding of `DequeueWorker.processPrefetchResponse` (pkg/queue/queue.go):
iterate over the reply in order; an `OK` status appends the corresponding
batch item's id to `fetchedIds`; a `BACKOFF` status records a backoff for the
item's topic (here, the list of topics backed off, in order).  Go indexes
`items[i]` for every reply index `i`, so a reply longer than the batch panics
(modelled as `none`). -/
def processPrefetchResponse : List Prefetch.Message → List Prefetch.PrefetchResponseStatus →
    Option (List Nat × List String)
  | _, [] => some ([], [])
  | [], _ :: _ => none
  | item :: items, r :: rs =>
    match processPrefetchResponse items rs with
    | none => none
    | some (ids, ts) =>
      match r with
      | Prefetch.PrefetchResponseStatus.ok => some (item.id :: ids, ts)
      | Prefetch.PrefetchResponseStatus.backoff => some (ids, item.topic :: ts)

/-- The ids a dequeue round passes to `UpdatePrefetchedBatch(shard, ids, true)`
and commits (`DequeueWorker.dequeueMessages`): when the fetched batch is empty
the worker only backs off and performs no update (`none`); otherwise exactly
the ids collected by `processPrefetchResponse`. -/
def dequeueCommitIds (msgs : List Prefetch.Message)
    (reply : List Prefetch.PrefetchResponseStatus) : Option (List Nat) :=
  if msgs.length = 0 then none
  else (processPrefetchResponse msgs reply).map (fun out => out.1)

end Queue

-- ===================================================================
-- Theorems
-- ===================================================================

theorem alookup_ainsert_self {α β : Type} [DecidableEq α] (k : α) (v : β) :
    ∀ l : List (α × β), alookup k (ainsert k v l) = some v := by
  intro l
  induction l with
  | nil => simp [ainsert, alookup]
  | cons p rest ih =>
    by_cases h : p.1 = k
    · simp [ainsert, alookup, h]
    · simpa [ainsert, alookup, h] using ih

theorem mem_ainsert {α β : Type} [DecidableEq α] (k : α) (v : β) :
    ∀ (l : List (α × β)) (p : α × β), p ∈ ainsert k v l → p = (k, v) ∨ p ∈ l := by
  intro l
  induction l with
  | nil => simp [ainsert]
  | cons q rest ih =>
    intro p hp
    by_cases h : q.1 = k
    · rw [ainsert, if_pos h] at hp
      rcases List.mem_cons.mp hp with h1 | h1
      · exact Or.inl h1
      · exact Or.inr (List.mem_cons_of_mem _ h1)
    · rw [ainsert, if_neg h] at hp
      rcases List.mem_cons.mp hp with h1 | h1
      · exact Or.inr (h1 ▸ List.mem_cons_self _ _)
      · rcases ih p h1 with h2 | h2
        · exact Or.inl h2
        · exact Or.inr (List.mem_cons_of_mem _ h2)

theorem alookup_mem {α β : Type} [DecidableEq α] (k : α) :
    ∀ (l : List (α × β)) (v : β), alookup k l = some v → (k, v) ∈ l := by
  intro l
  induction l with
  | nil => intro v h; simp [alookup] at h
  | cons q rest ih =>
    intro v h
    by_cases hq : q.1 = k
    · rw [alookup, if_pos hq] at h
      cases h
      have : q = (k, q.2) := by
        rw [← hq]
      rw [← this]
      exact List.mem_cons_self _ _
    · rw [alookup, if_neg hq] at h
      exact List.mem_cons_of_mem _ (ih v h)

theorem countP_lt_countP {α : Type} (p q : α → Bool) :
    ∀ (l : List α) (w : α), w ∈ l → p w = false → q w = true →
      (∀ x ∈ l, p x = true → q x = true) → List.countP p l < List.countP q l := by
  intro l
  induction l with
  | nil => intro w hw; simp at hw
  | cons a rest ih =>
    intro w hw hpw hqw himp
    rcases List.mem_cons.mp hw with rfl | hw2
    · rw [List.countP_cons, List.countP_cons, hpw, hqw,
        if_neg Bool.false_ne_true, if_pos rfl]
      have hle : List.countP p rest ≤ List.countP q rest := by
        apply List.countP_mono_left
        intro x hx hpx
        exact himp x (List.mem_cons_of_mem _ hx) hpx
      omega
    · have hrec := ih w hw2 hpw hqw (fun x hx hpx => himp x (List.mem_cons_of_mem _ hx) hpx)
      rw [List.countP_cons, List.countP_cons]
      by_cases hpa : p a = true
      · rw [hpa, himp a (List.mem_cons_self _ _) hpa]
        omega
      · simp only [Bool.not_eq_true] at hpa
        rw [hpa]
        by_cases hqa : q a = true
        · rw [hqa]; simp; omega
        · simp only [Bool.not_eq_true] at hqa
          rw [hqa]; simpa using hrec

theorem nodup_lt_length_le {l : List Nat} {k : Nat} (hn : l.Nodup)
    (hlt : ∀ x ∈ l, x < k) : l.length ≤ k := by
  have hsub : l.toFinset ⊆ Finset.range k := by
    intro x hx
    rw [Finset.mem_range]
    exact hlt x (List.mem_toFinset.mp hx)
  have := Finset.card_le_card hsub
  rw [List.toFinset_card_of_nodup hn, Finset.card_range] at this
  exact this

namespace Db

theorem applyAdds_shards (calls : List AddCall) :
    ∀ m : ShardManager, (applyAdds m calls).shards = m.shards ++ calls.map AddCall.meta := by
  induction calls with
  | nil => intro m; simp [applyAdds]
  | cons c rest ih =>
    intro m
    rw [applyAdds, ih]
    simp [ShardManager.Add, AddCall.meta]

/-- Claim C1: every message returned by `FindMessagesReadyForDelivery`
satisfies `ReadyAt ≤ now`, `ExpiresAt > now`, `Prefetched = p` and
`Topic ∉ excludedTopics`; at most `maxRowsPerTopic` messages are returned per
topic and each returned row ranks among the `maxRowsPerTopic` lowest-id
candidate rows of its topic; at most `limit` rows are returned overall; and
the result is ordered by priority ascending.  The id-uniqueness hypothesis is
the table's primary-key constraint. -/
theorem claim_C1_find_ready_contract (table : List MessageRow) (now : Int) (p : Bool)
    (excl : List String) (k L : Nat)
    (hids : (table.map MessageRow.id).Nodup) :
    (∀ m ∈ findMessagesReadyForDelivery table now p excl k L,
        m.readyat ≤ now ∧ now < m.expiresat ∧ m.prefetched = p ∧ m.topic ∉ excl) ∧
    (∀ t : String,
        List.countP (fun m => m.topic == t) (findMessagesReadyForDelivery table now p excl k L) ≤ k) ∧
    (∀ m ∈ findMessagesReadyForDelivery table now p excl k L,
        rowNumber (table.filter (readyPred now p excl)) m ≤ k) ∧
    (findMessagesReadyForDelivery table now p excl k L).length ≤ L ∧
    List.Pairwise prioLE (findMessagesReadyForDelivery table now p excl k L) := by
  set cand := table.filter (readyPred now p excl) with hcand
  set sorted := List.insertionSort prioLE cand with hsorted
  set mid := sorted.filter (fun m => rowNumber cand m ≤ k) with hmid
  set res := mid.take L with hres
  have hresdef : findMessagesReadyForDelivery table now p excl k L = res := rfl
  have hsub1 : res.Sublist mid := List.take_sublist _ _
  have hsub2 : mid.Sublist sorted := List.filter_sublist _
  have hperm : sorted.Perm cand := List.perm_insertionSort _ _
  have hmemcand : ∀ m ∈ res, m ∈ cand := by
    intro m hm
    exact hperm.mem_iff.mp (hsub2.mem (hsub1.mem hm))
  have hmemmid : ∀ m ∈ res, rowNumber cand m ≤ k := by
    intro m hm
    have := hsub1.mem hm
    rw [hmid, List.mem_filter] at this
    exact Nat.le_of_ble_eq_true (by simpa using this.2)
  rw [hresdef]
  refine ⟨?_, ?_, ?_, ?_, ?_⟩
  · intro m hm
    have hc := hmemcand m hm
    rw [hcand, List.mem_filter, readyPred] at hc
    have h2 := hc.2
    simp only [Bool.and_eq_true, decide_eq_true_eq, beq_iff_eq, Bool.not_eq_true',
      decide_eq_false_iff_not] at h2
    exact ⟨h2.1.1.1, h2.1.1.2, h2.1.2, h2.2⟩
  · -- per-topic bound
    intro t
    rw [List.countP_eq_length_filter]
    set rest := res.filter (fun m => m.topic == t) with hrest
    have hsubt : rest.Sublist res := List.filter_sublist _
    -- ids of cand are nodup
    have hcandids : (cand.map MessageRow.id).Nodup := by
      have : (cand.map MessageRow.id).Sublist (table.map MessageRow.id) :=
        List.Sublist.map _ (List.filter_sublist _)
      exact this.nodup hids
    have hsortids : (sorted.map MessageRow.id).Nodup :=
      ((hperm.map MessageRow.id).nodup_iff).mpr hcandids
    have hresids : (rest.map MessageRow.id).Nodup := by
      have hs : (rest.map MessageRow.id).Sublist (sorted.map MessageRow.id) :=
        List.Sublist.map _ ((hsubt.trans hsub1).trans hsub2)
      exact hs.nodup hsortids
    have hrestnodup : rest.Nodup := List.Nodup.of_map _ hresids
    -- the counting function
    set f : MessageRow → Nat :=
      fun m => List.countP (fun x => x.topic == m.topic && decide (x.id < m.id)) cand with hf
    have hflt : ∀ m ∈ rest, f m < k := by
      intro m hm
      have h2 := hmemmid m (hsubt.mem hm)
      rw [rowNumber] at h2
      have hfm : f m = List.countP (fun x => x.topic == m.topic && decide (x.id < m.id)) cand := rfl
      omega
    have hmono : ∀ x ∈ cand, ∀ y ∈ cand, x.topic = y.topic → x.id < y.id → f x < f y := by
      intro x hx y hy htop hid
      apply countP_lt_countP _ _ cand x hx
      · simp only [Bool.and_eq_true, beq_iff_eq, decide_eq_true_eq, Bool.and_eq_false_iff]
        right
        simp
      · simp only [Bool.and_eq_true, beq_iff_eq, decide_eq_true_eq]
        exact ⟨htop, hid⟩
      · intro z hz hpz
        simp only [Bool.and_eq_true, beq_iff_eq, decide_eq_true_eq] at hpz ⊢
        exact ⟨hpz.1.trans htop, hpz.2.trans hid⟩
    have hinj : ∀ x ∈ rest, ∀ y ∈ rest, f x = f y → x = y := by
      intro x hx y hy hfxy
      have hxc : x ∈ cand := hmemcand x (hsubt.mem hx)
      have hyc : y ∈ cand := hmemcand y (hsubt.mem hy)
      have hxt : x.topic = t := by
        have := List.mem_filter.mp hx
        simpa using this.2
      have hyt : y.topic = t := by
        have := List.mem_filter.mp hy
        simpa using this.2
      have hid : x.id = y.id := by
        rcases Nat.lt_trichotomy x.id y.id with h | h | h
        · exact absurd hfxy (Nat.ne_of_lt (hmono x hxc y hyc (hxt.trans hyt.symm) h))
        · exact h
        · exact absurd hfxy.symm (Nat.ne_of_lt (hmono y hyc x hxc (hyt.trans hxt.symm) h))
      exact List.inj_on_of_nodup_map hresids hx hy hid
    have hmapnodup : (rest.map f).Nodup := List.Nodup.map_on hinj hrestnodup
    have hmaplt : ∀ v ∈ rest.map f, v < k := by
      intro v hv
      rcases List.mem_map.mp hv with ⟨m, hm, rfl⟩
      exact hflt m hm
    have := nodup_lt_length_le hmapnodup hmaplt
    simpa using this
  · intro m hm
    exact hmemmid m hm
  · exact List.length_take_le _ _
  · have hs : List.Sorted prioLE sorted := List.sorted_insertionSort _ _
    exact List.Pairwise.sublist (hsub1.trans hsub2) hs

theorem findReady_mem (table : List MessageRow) (now : Int) (p : Bool)
    (excl : List String) (k L : Nat) :
    ∀ m ∈ findMessagesReadyForDelivery table now p excl k L,
      m ∈ table ∧ readyPred now p excl m = true := by
  intro m hm
  simp only [findMessagesReadyForDelivery] at hm
  have h1 : m ∈ List.insertionSort prioLE (table.filter (readyPred now p excl)) :=
    (List.filter_sublist _).mem ((List.take_sublist _ _).mem hm)
  have h2 : m ∈ table.filter (readyPred now p excl) :=
    (List.perm_insertionSort _ _).mem_iff.mp h1
  have h3 := List.mem_filter.mp h2
  exact ⟨h3.1, h3.2⟩

/-- Claim C4: `AckNack(shard, id, true)` deletes exactly the row with that id
(membership is preserved for every other row); `AckNack(shard, id, false)`
keeps every row, setting `Prefetched := false` on the row with that id and
leaving all other rows and fields unchanged; and after an ack-delete no
`FindMessagesReadyForDelivery` call returns a message with that id. -/
theorem claim_C4_acknack (table : List MessageRow) (uid : Nat) (now : Int) (p : Bool)
    (excl : List String) (k L : Nat) :
    (∀ m, m ∈ ackNack table uid true ↔ (m ∈ table ∧ m.id ≠ uid)) ∧
    ((ackNack table uid false).length = table.length) ∧
    (∀ i : Nat, (ackNack table uid false).getD i defaultRow =
      (if (table.getD i defaultRow).id = uid
        then { table.getD i defaultRow with prefetched := false }
        else table.getD i defaultRow)) ∧
    (∀ m ∈ findMessagesReadyForDelivery (ackNack table uid true) now p excl k L,
      m.id ≠ uid) := by
  have hmap : ackNack table uid false =
      table.map (fun m => if m.id = uid then { m with prefetched := false } else m) := by
    simp [ackNack]
  have hdel : ackNack table uid true = table.filter (fun m => !(m.id == uid)) := by
    simp [ackNack]
  refine ⟨?_, ?_, ?_, ?_⟩
  · intro m
    rw [hdel, List.mem_filter]
    simp
  · rw [hmap, List.length_map]
  · intro i
    have hd : (fun m : MessageRow => if m.id = uid then { m with prefetched := false } else m)
        defaultRow = defaultRow := by
      simp only []
      by_cases h : defaultRow.id = uid
      · rw [if_pos h]
        rfl
      · rw [if_neg h]
    rw [hmap]
    conv_lhs => rw [← hd]
    rw [List.getD_map]
  · intro m hm
    have h1 := (findReady_mem _ now p excl k L m hm).1
    rw [hdel, List.mem_filter] at h1
    simpa using h1.2

/-- Witness for claim C1 at a concrete one-row table. -/
theorem claim_C1_find_ready_witness :
    (∀ m ∈ findMessagesReadyForDelivery [⟨1, "t", 5, 0, 0, -1, 1, false⟩] 0 false [] 1 10,
        m.readyat ≤ 0 ∧ (0:Int) < m.expiresat ∧ m.prefetched = false ∧
          m.topic ∉ ([] : List String)) ∧
    (∀ t : String, List.countP (fun m => m.topic == t)
        (findMessagesReadyForDelivery [⟨1, "t", 5, 0, 0, -1, 1, false⟩] 0 false [] 1 10) ≤ 1) ∧
    (∀ m ∈ findMessagesReadyForDelivery [⟨1, "t", 5, 0, 0, -1, 1, false⟩] 0 false [] 1 10,
        rowNumber (List.filter (readyPred 0 false [])
          [⟨1, "t", 5, 0, 0, -1, 1, false⟩]) m ≤ 1) ∧
    (findMessagesReadyForDelivery [⟨1, "t", 5, 0, 0, -1, 1, false⟩] 0 false [] 1 10).length ≤ 10 ∧
    List.Pairwise prioLE
      (findMessagesReadyForDelivery [⟨1, "t", 5, 0, 0, -1, 1, false⟩] 0 false [] 1 10) :=
  claim_C1_find_ready_contract [⟨1, "t", 5, 0, 0, -1, 1, false⟩] 0 false [] 1 10 (by decide)

end Db

namespace Domain

theorem and31 (x : Nat) : x &&& 31 = x % 32 := by
  have h := Nat.and_pow_two_sub_one_eq_mod x 5
  norm_num at h
  exact h

theorem lor_add (k x y : Nat) (hx : x % 2^k = 0) (hy : y < 2^k) : x ||| y = x + y := by
  obtain ⟨m, rfl⟩ : ∃ m, x = 2^k * m :=
    ⟨x / 2^k, (Nat.mul_div_cancel' (Nat.dvd_of_mod_eq_zero hx)).symm⟩
  rw [← Nat.mul_add_lt_is_or hy]

theorem lor_add' (k x y : Nat) (hx : x < 2^k) (hy : y % 2^k = 0) : x ||| y = y + x := by
  rw [Nat.lor_comm]
  exact lor_add k y x hy hx

theorem or_lt_32 {x y : Nat} (hx : x < 32) (hy : y < 32) : x ||| y < 32 := by
  have h32 : (32 : Nat) = 2 ^ 5 := by norm_num
  rw [h32] at hx hy ⊢
  exact Nat.or_lt_two_pow hx hy

theorem dec_enc : ∀ v < 32, b32Dec (b32Char v) = v := by decide

theorem xid_byte_a (a b : Nat) (ha : a < 256) (hb : b < 256) :
    (((a >>> 3) <<< 3) % 256) ||| (((b >>> 6) ||| ((a <<< 2) &&& 31)) >>> 2) = a := by
  simp only [Nat.shiftLeft_eq, Nat.shiftRight_eq_div_pow, and31]
  norm_num
  rw [lor_add' 2 (b / 64) (a * 4 % 32) (by omega) (by omega)]
  rw [lor_add 3 (a / 8 * 8 % 256) ((a * 4 % 32 + b / 64) / 4) (by omega) (by omega)]
  omega

theorem xid_byte_b (a b c : Nat) (ha : a < 256) (hb : b < 256) (hc : c < 256) :
    ((((b >>> 6) ||| ((a <<< 2) &&& 31)) <<< 6) % 256) |||
      ((((b >>> 1) &&& 31) <<< 1) % 256) |||
      ((((c >>> 4) &&& 31) ||| ((b <<< 4) &&& 31)) >>> 4) = b := by
  simp only [Nat.shiftLeft_eq, Nat.shiftRight_eq_div_pow, and31]
  norm_num
  rw [lor_add' 2 (b / 64) (a * 4 % 32) (by omega) (by omega)]
  rw [lor_add' 4 (c / 16 % 32) (b * 16 % 32) (by omega) (by omega)]
  rw [lor_add 6 ((a * 4 % 32 + b / 64) * 64 % 256) (b / 2 % 32 * 2 % 256) (by omega) (by omega)]
  rw [lor_add 1 ((a * 4 % 32 + b / 64) * 64 % 256 + b / 2 % 32 * 2 % 256)
      ((b * 16 % 32 + c / 16 % 32) / 16) (by omega) (by omega)]
  omega

theorem xid_byte_c (a b c : Nat) (ha : a < 256) (hb : b < 256) (hc : c < 256) :
    ((((b >>> 4) &&& 31) ||| ((a <<< 4) &&& 31)) <<< 4) % 256 |||
      (((c >>> 7) ||| ((b <<< 1) &&& 31)) >>> 1) = b := by
  simp only [Nat.shiftLeft_eq, Nat.shiftRight_eq_div_pow, and31]
  norm_num
  rw [lor_add' 4 (b / 16 % 32) (a * 16 % 32) (by omega) (by omega)]
  rw [lor_add' 1 (c / 128) (b * 2 % 32) (by omega) (by omega)]
  rw [lor_add 4 ((a * 16 % 32 + b / 16 % 32) * 16 % 256) ((b * 2 % 32 + c / 128) / 2)
      (by omega) (by omega)]
  omega

theorem xid_byte_d (a b c : Nat) (ha : a < 256) (hb : b < 256) (hc : c < 256) :
    ((((b >>> 7) ||| ((a <<< 1) &&& 31)) <<< 7) % 256) |||
      ((((b >>> 2) &&& 31) <<< 2) % 256) |||
      (((c >>> 5) ||| ((b <<< 3) &&& 31)) >>> 3) = b := by
  simp only [Nat.shiftLeft_eq, Nat.shiftRight_eq_div_pow, and31]
  norm_num
  rw [lor_add' 1 (b / 128) (a * 2 % 32) (by omega) (by omega)]
  rw [lor_add' 3 (c / 32) (b * 8 % 32) (by omega) (by omega)]
  rw [lor_add 7 ((a * 2 % 32 + b / 128) * 128 % 256) (b / 4 % 32 * 4 % 256) (by omega) (by omega)]
  rw [lor_add 2 ((a * 2 % 32 + b / 128) * 128 % 256 + b / 4 % 32 * 4 % 256)
      ((b * 8 % 32 + c / 32) / 8) (by omega) (by omega)]
  omega

theorem xid_byte_e (a b : Nat) (ha : a < 256) (hb : b < 256) :
    ((((b >>> 5) ||| ((a <<< 3) &&& 31)) <<< 5) % 256) ||| (b &&& 31) = b := by
  simp only [Nat.shiftLeft_eq, Nat.shiftRight_eq_div_pow, and31]
  norm_num
  rw [lor_add' 3 (b / 32) (a * 8 % 32) (by omega) (by omega)]
  rw [lor_add 5 ((a * 8 % 32 + b / 32) * 32 % 256) (b % 32) (by omega) (by omega)]
  omega

theorem xid_byte_f (a b : Nat) (ha : a < 256) (hb : b < 256) :
    ((((b >>> 6) ||| ((a <<< 2) &&& 31)) <<< 6) % 256) |||
      ((((b >>> 1) &&& 31) <<< 1) % 256) |||
      (((b <<< 4) &&& 31) >>> 4) = b := by
  simp only [Nat.shiftLeft_eq, Nat.shiftRight_eq_div_pow, and31]
  norm_num
  rw [lor_add' 2 (b / 64) (a * 4 % 32) (by omega) (by omega)]
  rw [lor_add 6 ((a * 4 % 32 + b / 64) * 64 % 256) (b / 2 % 32 * 2 % 256) (by omega) (by omega)]
  rw [lor_add 1 ((a * 4 % 32 + b / 64) * 64 % 256 + b / 2 % 32 * 2 % 256)
      (b * 16 % 32 / 16) (by omega) (by omega)]
  omega

theorem xidDecode_xidChars (b0 b1 b2 b3 b4 b5 b6 b7 b8 b9 b10 b11 : Nat)
    (h0 : b0 < 256) (h1 : b1 < 256) (h2 : b2 < 256) (h3 : b3 < 256)
    (h4 : b4 < 256) (h5 : b5 < 256) (h6 : b6 < 256) (h7 : b7 < 256)
    (h8 : b8 < 256) (h9 : b9 < 256) (h10 : b10 < 256) (h11 : b11 < 256) :
    xidDecode (xidChars [b0, b1, b2, b3, b4, b5, b6, b7, b8, b9, b10, b11]) =
      some [b0, b1, b2, b3, b4, b5, b6, b7, b8, b9, b10, b11] := by
  have shr3 : ∀ x : Nat, x < 256 → x >>> 3 < 32 := by
    intro x hx
    simp only [Nat.shiftRight_eq_div_pow]
    omega
  have shrk : ∀ (x k : Nat), x < 256 → 8 ≤ 2 ^ k → x >>> k < 32 := by
    intro x k hx hk
    rw [Nat.shiftRight_eq_div_pow]
    have : x / 2 ^ k ≤ x / 8 := Nat.div_le_div_left hk (by norm_num)
    omega
  have andb : ∀ x : Nat, x &&& 31 < 32 := by
    intro x
    rw [and31]
    omega
  have E0 := shr3 b0 h0
  have E1 : (b1 >>> 6) ||| ((b0 <<< 2) &&& 31) < 32 :=
    or_lt_32 (shrk b1 6 h1 (by norm_num)) (andb _)
  have E2 := andb ((b1 >>> 1))
  have E3 : ((b2 >>> 4) &&& 31) ||| ((b1 <<< 4) &&& 31) < 32 := or_lt_32 (andb _) (andb _)
  have E4 : (b3 >>> 7) ||| ((b2 <<< 1) &&& 31) < 32 :=
    or_lt_32 (shrk b3 7 h3 (by norm_num)) (andb _)
  have E5 := andb ((b3 >>> 2))
  have E6 : (b4 >>> 5) ||| ((b3 <<< 3) &&& 31) < 32 :=
    or_lt_32 (shrk b4 5 h4 (by norm_num)) (andb _)
  have E7 := andb b4
  have E8 := shr3 b5 h5
  have E9 : (b6 >>> 6) ||| ((b5 <<< 2) &&& 31) < 32 :=
    or_lt_32 (shrk b6 6 h6 (by norm_num)) (andb _)
  have E10 := andb ((b6 >>> 1))
  have E11 : ((b7 >>> 4) &&& 31) ||| ((b6 <<< 4) &&& 31) < 32 := or_lt_32 (andb _) (andb _)
  have E12 : (b8 >>> 7) ||| ((b7 <<< 1) &&& 31) < 32 :=
    or_lt_32 (shrk b8 7 h8 (by norm_num)) (andb _)
  have E13 := andb ((b8 >>> 2))
  have E14 : (b9 >>> 5) ||| ((b8 <<< 3) &&& 31) < 32 :=
    or_lt_32 (shrk b9 5 h9 (by norm_num)) (andb _)
  have E15 := andb b9
  have E16 := shr3 b10 h10
  have E17 : (b11 >>> 6) ||| ((b10 <<< 2) &&& 31) < 32 :=
    or_lt_32 (shrk b11 6 h11 (by norm_num)) (andb _)
  have E18 := andb ((b11 >>> 1))
  have E19 := andb ((b11 <<< 4))
  have D0 := dec_enc _ E0
  have D1 := dec_enc _ E1
  have D2 := dec_enc _ E2
  have D3 := dec_enc _ E3
  have D4 := dec_enc _ E4
  have D5 := dec_enc _ E5
  have D6 := dec_enc _ E6
  have D7 := dec_enc _ E7
  have D8 := dec_enc _ E8
  have D9 := dec_enc _ E9
  have D10 := dec_enc _ E10
  have D11 := dec_enc _ E11
  have D12 := dec_enc _ E12
  have D13 := dec_enc _ E13
  have D14 := dec_enc _ E14
  have D15 := dec_enc _ E15
  have D16 := dec_enc _ E16
  have D17 := dec_enc _ E17
  have D18 := dec_enc _ E18
  have D19 := dec_enc _ E19
  show xidDecode _ = _
  simp only [xidChars, xidEncVals, List.map]
  rw [xidDecode]
  simp only [D0, D1, D2, D3, D4, D5, D6, D7, D8, D9, D10,
    D11, D12, D13, D14, D15, D16, D17, D18, D19]
  rw [if_neg (by omega)]
  rw [xid_byte_f b10 b11 h10 h11]
  rw [if_neg (fun h => h rfl)]
  rw [xid_byte_a b0 b1 h0 h1, xid_byte_b b0 b1 b2 h0 h1 h2, xid_byte_c b1 b2 b3 h1 h2 h3,
    xid_byte_d b2 b3 b4 h2 h3 h4, xid_byte_e b3 b4 h3 h4, xid_byte_a b5 b6 h5 h6,
    xid_byte_b b5 b6 b7 h5 h6 h7, xid_byte_c b6 b7 b8 h6 h7 h8, xid_byte_d b7 b8 b9 h7 h8 h9,
    xid_byte_e b8 b9 h8 h9, xid_byte_a b10 b11 h10 h11]

theorem splitOnDash_no_dash : ∀ l : List Char, '-' ∉ l → splitOnDash l = [l] := by
  intro l
  induction l with
  | nil => intro _; rfl
  | cons c rest ih =>
    intro h
    have hc : ¬ (c = '-') := fun hh => h (hh ▸ List.mem_cons_self _ _)
    have hrest : '-' ∉ rest := fun hh => h (List.mem_cons_of_mem _ hh)
    rw [splitOnDash, if_neg hc, ih hrest]

theorem splitOnDash_append (a b : List Char) (ha : '-' ∉ a) (hb : '-' ∉ b) :
    splitOnDash (a ++ '-' :: b) = [a, b] := by
  induction a with
  | nil =>
    simp only [List.nil_append]
    rw [splitOnDash, if_pos rfl, splitOnDash_no_dash b hb]
  | cons c rest ih =>
    have hc : ¬ (c = '-') := fun hh => ha (hh ▸ List.mem_cons_self _ _)
    have hrest : '-' ∉ rest := fun hh => ha (List.mem_cons_of_mem _ hh)
    simp only [List.cons_append]
    rw [splitOnDash, if_neg hc, ih hrest]

theorem digit_facts : ∀ d < 10, decDigitChar d ≠ '-' ∧ (decDigitChar d).isDigit = true ∧
    (decDigitChar d).toNat - 48 = d := by decide

theorem natDecChars_no_dash (n : Nat) : '-' ∉ natDecChars n := by
  rw [natDecChars]
  by_cases h : n = 0
  · rw [if_pos h]
    decide
  · rw [if_neg h]
    intro hmem
    rcases List.mem_map.mp hmem with ⟨d, hd, hchar⟩
    have hd10 : d < 10 := Nat.digits_lt_base (by norm_num) (List.mem_reverse.mp hd)
    exact (digit_facts d hd10).1 hchar

theorem natDecChars_ne_nil (n : Nat) : natDecChars n ≠ [] := by
  rw [natDecChars]
  by_cases h : n = 0
  · rw [if_pos h]; simp
  · rw [if_neg h]
    simp [Nat.digits_ne_nil_iff_ne_zero.mpr h]

theorem natDecChars_all_digit (n : Nat) : (natDecChars n).all Char.isDigit = true := by
  rw [natDecChars]
  by_cases h : n = 0
  · rw [if_pos h]; decide
  · rw [if_neg h]
    rw [List.all_eq_true]
    intro c hc
    rcases List.mem_map.mp hc with ⟨d, hd, hchar⟩
    have hd10 : d < 10 := Nat.digits_lt_base (by norm_num) (List.mem_reverse.mp hd)
    exact hchar ▸ (digit_facts d hd10).2.1

theorem foldl_map_digits : ∀ (ds : List Nat) (acc : Nat), (∀ d ∈ ds, d < 10) →
    List.foldl (fun acc c => 10 * acc + (c.toNat - 48)) acc (ds.map decDigitChar) =
      List.foldl (fun acc d => 10 * acc + d) acc ds := by
  intro ds
  induction ds with
  | nil => intro acc _; rfl
  | cons d rest ih =>
    intro acc h
    have hd : d < 10 := h d (List.mem_cons_self _ _)
    simp only [List.map, List.foldl]
    rw [(digit_facts d hd).2.2]
    exact ih _ (fun x hx => h x (List.mem_cons_of_mem _ hx))

theorem foldl_horner : ∀ (ds : List Nat) (acc : Nat),
    List.foldl (fun acc d => 10 * acc + d) acc ds.reverse =
      acc * 10 ^ ds.length + Nat.ofDigits 10 ds := by
  intro ds
  induction ds with
  | nil => intro acc; simp [Nat.ofDigits]
  | cons d rest ih =>
    intro acc
    simp only [List.reverse_cons, List.foldl_append, List.foldl]
    rw [ih, Nat.ofDigits_cons]
    simp only [List.length_cons, pow_succ]
    ring

theorem goAtoi_natDecChars (n : Nat) : goAtoi (natDecChars n) = some n := by
  rw [goAtoi, if_neg (natDecChars_ne_nil n), if_pos (natDecChars_all_digit n)]
  congr 1
  by_cases h : n = 0
  · subst h; rfl
  · rw [natDecChars, if_neg h]
    have hds : ∀ d ∈ (Nat.digits 10 n).reverse, d < 10 := by
      intro d hd
      exact Nat.digits_lt_base (by norm_num) (List.mem_reverse.mp hd)
    rw [foldl_map_digits _ 0 hds]
    rw [foldl_horner]
    simp [Nat.ofDigits_digits]

theorem b32Char_ne_dash (v : Nat) : b32Char v ≠ '-' := by
  rcases Nat.lt_or_ge v 32 with h | h
  · interval_cases v <;> decide
  · rw [b32Char, List.getD_eq_default]
    · decide
    · show b32Alphabet.length ≤ v
      have hlen : b32Alphabet.length = 32 := rfl
      omega

theorem xidChars_no_dash (l : List Nat) : '-' ∉ xidChars l := by
  intro hmem
  rcases List.mem_map.mp hmem with ⟨v, _, hchar⟩
  exact b32Char_ne_dash v hchar

theorem beUint32_eq_arith (a b c d : Nat) (ha : a < 256) (hb : b < 256)
    (hc : c < 256) (hd : d < 256) :
    beUint32 [a, b, c, d] = a * 2^24 + b * 2^16 + c * 2^8 + d := by
  rw [beUint32]
  simp only [List.getD, Nat.shiftLeft_eq]
  norm_num
  rw [lor_add' 8 d (c * 256) (by omega) (by omega)]
  rw [lor_add' 16 (c * 256 + d) (b * 65536) (by omega) (by omega)]
  rw [lor_add' 24 (b * 65536 + (c * 256 + d)) (a * 16777216) (by omega) (by omega)]
  ring

theorem bePutUint32_beUint32 (a b c d : Nat) (ha : a < 256) (hb : b < 256)
    (hc : c < 256) (hd : d < 256) :
    bePutUint32 (beUint32 [a, b, c, d]) = [a, b, c, d] := by
  rw [beUint32_eq_arith a b c d ha hb hc hd, bePutUint32]
  simp only [Nat.shiftRight_eq_div_pow]
  norm_num
  refine ⟨by omega, by omega, by omega, by omega⟩

theorem beUint32_bePutUint32 (s : Nat) (hs : s < 2^32) :
    beUint32 (bePutUint32 s) = s := by
  rw [bePutUint32]
  rw [beUint32_eq_arith _ _ _ _ (by omega) (by omega) (by omega) (by omega)]
  simp only [Nat.shiftRight_eq_div_pow]
  norm_num
  omega

theorem beUint32_lt (a b c d : Nat) (ha : a < 256) (hb : b < 256)
    (hc : c < 256) (hd : d < 256) : beUint32 [a, b, c, d] < 2^32 := by
  rw [beUint32_eq_arith a b c d ha hb hc hd]
  norm_num
  omega

end Domain

namespace Prefetch

-- basic getD / set / swap lemmas

theorem hget_set_self (h : MsgHeap) (i : Nat) (x : Message) (hi : i < h.length) :
    hget (h.set i x) i = x := by
  have hlen : i < (h.set i x).length := by
    rw [List.length_set]
    exact hi
  rw [hget, List.getD_eq_getElem _ _ hlen]
  exact List.getElem_set_self hlen

theorem hget_set_ne (h : MsgHeap) (i j : Nat) (x : Message) (hij : i ≠ j) :
    hget (h.set i x) j = hget h j := by
  rw [hget, hget, List.getD_eq_getElem?_getD, List.getD_eq_getElem?_getD,
    List.getElem?_set_ne hij]

theorem hswap_length (h : MsgHeap) (i j : Nat) : (hswap h i j).length = h.length := by
  rw [hswap, List.length_set, List.length_set]

theorem hget_hswap_right (h : MsgHeap) (a b : Nat) (hb : b < h.length) :
    hget (hswap h a b) b = hget h a := by
  rw [hswap]
  apply hget_set_self
  rw [List.length_set]
  exact hb

theorem hget_hswap_left (h : MsgHeap) (a b : Nat) (ha : a < h.length) (hab : a ≠ b) :
    hget (hswap h a b) a = hget h b := by
  rw [hswap, hget_set_ne _ _ _ _ (fun hh => hab hh.symm)]
  exact hget_set_self _ _ _ ha

theorem hget_hswap_other (h : MsgHeap) (a b idx : Nat) (h1 : idx ≠ a) (h2 : idx ≠ b) :
    hget (hswap h a b) idx = hget h idx := by
  rw [hswap, hget_set_ne _ _ _ _ (fun hh => h2 hh.symm),
    hget_set_ne _ _ _ _ (fun hh => h1 hh.symm)]

theorem hget_mem (h : MsgHeap) (i : Nat) (hi : i < h.length) : hget h i ∈ h := by
  rw [hget, List.getD_eq_getElem _ _ hi]
  exact List.getElem_mem _

theorem hswap_mem (h : MsgHeap) (a b : Nat) (ha : a < h.length) (hb : b < h.length) :
    ∀ m ∈ hswap h a b, m ∈ h := by
  intro m hm
  rw [hswap] at hm
  rcases List.mem_or_eq_of_mem_set hm with hm1 | rfl
  · rcases List.mem_or_eq_of_mem_set hm1 with hm2 | rfl
    · exact hm2
    · exact hget_mem h b hb
  · exact hget_mem h a ha

-- length preservation

theorem upAux_length : ∀ (fuel : Nat) (h : MsgHeap) (j : Nat),
    (upAux fuel h j).length = h.length := by
  intro fuel
  induction fuel with
  | zero => intro h j; rfl
  | succ f ih =>
    intro h j
    rw [upAux]
    split
    · rfl
    · rw [ih, hswap_length]

theorem downAux_length : ∀ (fuel : Nat) (h : MsgHeap) (i n : Nat),
    (downAux fuel h i n).length = h.length := by
  intro fuel
  induction fuel with
  | zero => intro h i n; rfl
  | succ f ih =>
    intro h i n
    rw [downAux]
    split
    · rfl
    · split
      · rfl
      · rw [ih, hswap_length]

theorem heapPush_length (h : MsgHeap) (m : Message) :
    (heapPush h m).length = h.length + 1 := by
  rw [heapPush, up, upAux_length, List.length_append]
  rfl

theorem heapPop_length (h : MsgHeap) : (heapPop h).2.length = h.length - 1 := by
  rw [heapPop]
  simp only [List.length_take, down, downAux_length, hswap_length]
  omega

theorem bounded_ainsert (bufs : Buffers) (t : String) (hp : MsgHeap)
    (hb : Bounded bufs) (hlen : hp.length ≤ MaxPrefetchItemCount) :
    Bounded (ainsert t hp bufs) := by
  intro p hmem
  rcases mem_ainsert t hp bufs p hmem with rfl | h2
  · exact hlen
  · exact hb p h2

theorem bounded_alookup (bufs : Buffers) (t : String) (hp : MsgHeap)
    (hb : Bounded bufs) (hl : alookup t bufs = some hp) :
    hp.length ≤ MaxPrefetchItemCount :=
  hb (t, hp) (alookup_mem t bufs hp hl)

theorem lookupOrNew_bounded (bufs : Buffers) (t : String) (hb : Bounded bufs) :
    (lookupOrNew bufs t).1.length ≤ MaxPrefetchItemCount ∧
      Bounded (lookupOrNew bufs t).2 := by
  rw [lookupOrNew]
  cases hl : alookup t bufs with
  | some hp =>
    exact ⟨bounded_alookup bufs t hp hb hl, hb⟩
  | none =>
    refine ⟨by simp [MaxPrefetchItemCount], ?_⟩
    exact bounded_ainsert bufs t [] hb (by simp [MaxPrefetchItemCount])

theorem ingestStep_bounded (bufs : Buffers) (msg : Message) (hb : Bounded bufs) :
    Bounded (ingestStep bufs msg).2 := by
  obtain ⟨h1, h2⟩ := lookupOrNew_bounded bufs msg.topic hb
  rw [ingestStep]
  by_cases hlt : (lookupOrNew bufs msg.topic).1.length < MaxPrefetchItemCount
  · rw [if_pos hlt]
    apply bounded_ainsert _ _ _ h2
    rw [heapPush_length]
    omega
  · rw [if_neg hlt]
    exact h2

theorem processIngest_bounded :
    ∀ (batch : List Message) (bufs : Buffers), Bounded bufs →
      Bounded (processIngest bufs batch).2 := by
  intro batch
  induction batch with
  | nil => intro bufs hb; exact hb
  | cons msg rest ih =>
    intro bufs hb
    rw [processIngest]
    exact ih _ (ingestStep_bounded bufs msg hb)

theorem popLoop_length : ∀ (k : Nat) (h : MsgHeap),
    (popLoop h k).2.length = h.length - k := by
  intro k
  induction k with
  | zero => intro h; simp [popLoop]
  | succ k ih =>
    intro h
    rw [popLoop]
    simp only
    rw [ih, heapPop_length]
    omega

theorem processGetItems_bounded (bufs : Buffers) (req : GetItemsRequest)
    (res : GetItemsResponse) (bufs2 : Buffers) (hb : Bounded bufs)
    (hc : processGetItems bufs req = some (res, bufs2)) : Bounded bufs2 := by
  rw [processGetItems] at hc
  cases hl : alookup req.Topic bufs with
  | none =>
    rw [hl] at hc
    dsimp only at hc
    simp only [Option.some.injEq, Prod.mk.injEq] at hc
    rw [← hc.2]
    exact hb
  | some tHeap =>
    rw [hl] at hc
    dsimp only at hc
    by_cases hneg : popCount tHeap req < 0
    · rw [if_pos hneg] at hc
      cases hc
    · rw [if_neg hneg] at hc
      simp only [Option.some.injEq, Prod.mk.injEq] at hc
      rw [← hc.2]
      apply bounded_ainsert _ _ _ hb
      rw [popLoop_length]
      have := bounded_alookup bufs req.Topic tHeap hb hl
      omega

/-- Claim C2: every reachable buffer state keeps each per-topic heap within
`MaxPrefetchItemCount` (= 100) messages, and both `processIngest` (for every
batch) and `processGetItems` (for every request that completes) preserve the
bound. -/
theorem claim_C2_buffer_bound :
    (∀ bufs : Buffers, Reachable bufs →
      ∀ (t : String) (hp : MsgHeap), alookup t bufs = some hp →
        hp.length ≤ MaxPrefetchItemCount) ∧
    (∀ (bufs : Buffers) (batch : List Message), Bounded bufs →
      Bounded (processIngest bufs batch).2) ∧
    (∀ (bufs : Buffers) (req : GetItemsRequest) (res : GetItemsResponse)
      (bufs2 : Buffers), Bounded bufs → processGetItems bufs req = some (res, bufs2) →
      Bounded bufs2) := by
  have hreach : ∀ bufs : Buffers, Reachable bufs → Bounded bufs := by
    intro bufs hr
    induction hr with
    | init => intro p hp; simp at hp
    | ingest bufs0 batch _ ih => exact processIngest_bounded batch bufs0 ih
    | getItems bufs0 req res bufs2 _ hc ih => exact processGetItems_bounded bufs0 req res bufs2 ih hc
  refine ⟨?_, ?_, ?_⟩
  · intro bufs hr t hp hl
    exact bounded_alookup bufs t hp (hreach bufs hr) hl
  · intro bufs batch hb
    exact processIngest_bounded batch bufs hb
  · intro bufs req res bufs2 hb hc
    exact processGetItems_bounded bufs req res bufs2 hb hc

/-- Witness for claim C2: a state reached by ingesting one message, a batch
ingest from it, and a completed `GetItems` on it. -/
theorem claim_C2_witness :
    (∀ (t : String) (hp : MsgHeap),
      alookup t (processIngest [] [⟨1, "t", 5, 0, 0⟩]).2 = some hp →
        hp.length ≤ MaxPrefetchItemCount) ∧
    Bounded (processIngest [] [⟨1, "t", 5, 0, 0⟩]).2 := by
  constructor
  · intro t hp hl
    exact (claim_C2_buffer_bound.1 (processIngest [] [⟨1, "t", 5, 0, 0⟩]).2
      (Reachable.ingest [] [⟨1, "t", 5, 0, 0⟩] Reachable.init) t hp hl)
  · exact claim_C2_buffer_bound.2.1 [] [⟨1, "t", 5, 0, 0⟩] (by intro p hp; simp at hp)

theorem hless_true {h : MsgHeap} {a b : Nat} (hc : hless h a b = true) :
    (hget h a).priority < (hget h b).priority := by
  rw [hless, decide_eq_true_eq] at hc
  exact hc

theorem hless_false {h : MsgHeap} {a b : Nat} (hc : ¬ hless h a b = true) :
    (hget h b).priority ≤ (hget h a).priority := by
  rw [hless, decide_eq_true_eq] at hc
  omega

theorem isHeapOn_root_le (h : MsgHeap) (n : Nat) (hh : IsHeapOn h n) :
    ∀ j, j < n → (hget h 0).priority ≤ (hget h j).priority := by
  intro j
  induction j using Nat.strong_induction_on with
  | _ j ih =>
    intro hj
    rcases Nat.eq_zero_or_pos j with rfl | hj0
    · exact Nat.le_refl _
    · have hp : (j-1)/2 < j := by omega
      exact (ih ((j-1)/2) hp (by omega)).trans (hh j hj0 hj)

theorem childSel_cases (h : MsgHeap) (i n : Nat) :
    childSel h i n = 2*i+1 ∨ childSel h i n = 2*i+2 := by
  rw [childSel]
  split
  · right; rfl
  · left; rfl

theorem childSel_lt (h : MsgHeap) (i n : Nat) (h1 : 2*i+1 < n) : childSel h i n < n := by
  rw [childSel]
  split
  · rename_i hc
    exact hc.1
  · exact h1

theorem childSel_min (h : MsgHeap) (i n : Nat) :
    (hget h (childSel h i n)).priority ≤ (hget h (2*i+1)).priority ∧
    (2*i+2 < n → (hget h (childSel h i n)).priority ≤ (hget h (2*i+2)).priority) := by
  rw [childSel]
  split
  · rename_i hcond
    exact ⟨Nat.le_of_lt (hless_true hcond.2), fun _ => Nat.le_refl _⟩
  · rename_i hcond
    refine ⟨Nat.le_refl _, fun h2n => ?_⟩
    rcases Decidable.not_and_iff_or_not.mp hcond with hc | hc
    · exact absurd h2n hc
    · exact hless_false hc

theorem downAux_heap : ∀ (fuel : Nat) (h : MsgHeap) (i n : Nat),
    n - i ≤ fuel → n ≤ h.length → DownInv h i n →
    IsHeapOn (downAux fuel h i n) n := by
  intro fuel
  induction fuel with
  | zero =>
    intro h i n hfuel _ hinv
    intro c hc0 hcn
    exact hinv.1 c hc0 hcn (by omega)
  | succ fuel ih =>
    intro h i n hfuel hlen hinv
    rw [downAux]
    by_cases hj1 : 2*i + 1 ≥ n
    · rw [if_pos hj1]
      intro c hc0 hcn
      exact hinv.1 c hc0 hcn (by omega)
    · rw [if_neg hj1]
      have hj1n : 2*i + 1 < n := by omega
      have hin : i < n := by omega
      have hilen : i < h.length := by omega
      have hjn : childSel h i n < n := childSel_lt h i n hj1n
      have hjlen : childSel h i n < h.length := by omega
      have hpj : (childSel h i n - 1)/2 = i := by
        rcases childSel_cases h i n with hj | hj <;> omega
      have hij : i < childSel h i n := by
        rcases childSel_cases h i n with hj | hj <;> omega
      have hmin := childSel_min h i n
      by_cases hstop : ¬ hless h (childSel h i n) i = true
      · rw [if_pos hstop]
        have hge : (hget h i).priority ≤ (hget h (childSel h i n)).priority :=
          hless_false hstop
        intro c hc0 hcn
        by_cases hpc : (c-1)/2 = i
        · have hcc : c = 2*i+1 ∨ c = 2*i+2 := by omega
          rw [hpc]
          rcases hcc with rfl | rfl
          · exact hge.trans hmin.1
          · exact hge.trans (hmin.2 hcn)
        · exact hinv.1 c hc0 hcn hpc
      · rw [if_neg hstop]
        rw [Decidable.not_not] at hstop
        have hlt : (hget h (childSel h i n)).priority < (hget h i).priority :=
          hless_true hstop
        apply ih _ _ _ (by omega) (by rw [hswap_length]; exact hlen)
        constructor
        · intro c hc0 hcn hpc
          by_cases hci : c = i
          · subst hci
            have hi0 : 0 < c := hc0
            rw [hget_hswap_other h c (childSel h c n) ((c-1)/2) (by omega) (by omega)]
            rw [hget_hswap_left h c (childSel h c n) hilen (by omega)]
            exact hinv.2 hi0 (childSel h c n) hjn (by omega)
          · by_cases hcj : c = childSel h i n
            · rw [hcj, hpj]
              rw [hget_hswap_left h i (childSel h i n) hilen (by omega)]
              rw [hget_hswap_right h i (childSel h i n) hjlen]
              exact Nat.le_of_lt hlt
            · by_cases hpci : (c-1)/2 = i
              · have hcc : c = 2*i+1 ∨ c = 2*i+2 := by omega
                rw [hpci]
                rw [hget_hswap_left h i (childSel h i n) hilen (by omega)]
                rw [hget_hswap_other h i (childSel h i n) c (by omega) (by omega)]
                rcases hcc with rfl | rfl
                · exact hmin.1
                · exact hmin.2 hcn
              · rw [hget_hswap_other h i (childSel h i n) ((c-1)/2) hpci hpc]
                rw [hget_hswap_other h i (childSel h i n) c (by omega) (by omega)]
                exact hinv.1 c hc0 hcn hpci
        · intro hj0 c hcn hcc
          rw [hpj]
          rw [hget_hswap_left h i (childSel h i n) hilen (by omega)]
          rw [hget_hswap_other h i (childSel h i n) c (by omega) (by omega)]
          have hedge := hinv.1 c (by omega) hcn (by omega)
          have hpc : (c-1)/2 = childSel h i n := by omega
          rw [hpc] at hedge
          exact hedge

theorem downAux_hget_ge : ∀ (fuel : Nat) (h : MsgHeap) (i n idx : Nat), n ≤ idx →
    hget (downAux fuel h i n) idx = hget h idx := by
  intro fuel
  induction fuel with
  | zero => intro h i n idx _; rfl
  | succ fuel ih =>
    intro h i n idx hidx
    rw [downAux]
    by_cases hj1 : 2*i + 1 ≥ n
    · rw [if_pos hj1]
    · rw [if_neg hj1]
      have hjn : childSel h i n < n := childSel_lt h i n (by omega)
      by_cases hstop : ¬ hless h (childSel h i n) i = true
      · rw [if_pos hstop]
      · rw [if_neg hstop]
        rw [ih _ _ _ _ hidx]
        exact hget_hswap_other h i (childSel h i n) idx (by omega) (by omega)

theorem downAux_mem : ∀ (fuel : Nat) (h : MsgHeap) (i n : Nat), n ≤ h.length →
    ∀ m ∈ downAux fuel h i n, m ∈ h := by
  intro fuel
  induction fuel with
  | zero => intro h i n _ m hm; exact hm
  | succ fuel ih =>
    intro h i n hlen m hm
    rw [downAux] at hm
    by_cases hj1 : 2*i + 1 ≥ n
    · rw [if_pos hj1] at hm; exact hm
    · rw [if_neg hj1] at hm
      have hjn : childSel h i n < n := childSel_lt h i n (by omega)
      by_cases hstop : ¬ hless h (childSel h i n) i = true
      · rw [if_pos hstop] at hm; exact hm
      · rw [if_neg hstop] at hm
        have hm2 := ih _ _ _ (by rw [hswap_length]; exact hlen) m hm
        exact hswap_mem h i (childSel h i n) (by omega) (by omega) m hm2

theorem take_isHeapOn (h : MsgHeap) (n : Nat) (hh : IsHeapOn h n) (hn : n ≤ h.length) :
    IsHeap (h.take n) := by
  have hlen : (h.take n).length = n := by
    rw [List.length_take]
    omega
  rw [IsHeap, hlen]
  intro j hj0 hjn
  have hj2 : (j-1)/2 < n := by omega
  have hg1 : hget (h.take n) ((j-1)/2) = hget h ((j-1)/2) := by
    rw [hget, hget, List.getD_eq_getElem _ _ (by omega), List.getD_eq_getElem _ _ (by omega),
      List.getElem_take]
  have hg2 : hget (h.take n) j = hget h j := by
    rw [hget, hget, List.getD_eq_getElem _ _ (by omega), List.getD_eq_getElem _ _ (by omega),
      List.getElem_take]
  rw [hg1, hg2]
  exact hh j hj0 hjn

theorem heapPop_spec (h : MsgHeap) (hne : h.length ≠ 0) (hh : IsHeap h) :
    (heapPop h).1 = hget h 0 ∧
    (∀ m ∈ h, (hget h 0).priority ≤ m.priority) ∧
    IsHeap (heapPop h).2 ∧
    (heapPop h).2.length = h.length - 1 ∧
    (∀ m ∈ (heapPop h).2, m ∈ h) := by
  have hlen1 : h.length - 1 < h.length := by omega
  have hswaplen : (hswap h 0 (h.length - 1)).length = h.length := hswap_length _ _ _
  have hinv : DownInv (hswap h 0 (h.length - 1)) 0 (h.length - 1) := by
    constructor
    · intro c hc0 hcn hpc
      have hp : (c-1)/2 < c := by omega
      rw [hget_hswap_other h 0 (h.length - 1) ((c-1)/2) (by omega) (by omega)]
      rw [hget_hswap_other h 0 (h.length - 1) c (by omega) (by omega)]
      exact hh c hc0 (by omega)
    · intro h0
      omega
  have hheap2 : IsHeapOn (down (hswap h 0 (h.length - 1)) 0 (h.length - 1)) (h.length - 1) := by
    rw [down]
    exact downAux_heap _ _ _ _ (by omega) (by omega) hinv
  refine ⟨?_, ?_, ?_, heapPop_length h, ?_⟩
  · rw [heapPop]
    simp only
    rw [down, downAux_hget_ge _ _ _ _ _ (Nat.le_refl _)]
    exact hget_hswap_right h 0 (h.length - 1) hlen1
  · intro m hm
    rcases List.mem_iff_getElem.mp hm with ⟨j, hj, rfl⟩
    have h2 : hget h j = h[j] := by
      rw [hget]
      exact List.getD_eq_getElem _ _ hj
    rw [← h2]
    exact isHeapOn_root_le h h.length hh j hj
  · rw [heapPop]
    simp only
    exact take_isHeapOn _ _ hheap2 (by rw [down, downAux_length, hswaplen]; omega)
  · intro m hm
    rw [heapPop] at hm
    simp only at hm
    have hm2 : m ∈ down (hswap h 0 (h.length - 1)) 0 (h.length - 1) :=
      List.take_subset _ _ hm
    rw [down] at hm2
    have hm3 := downAux_mem _ _ _ _ (by omega) m hm2
    exact hswap_mem h 0 (h.length - 1) (by omega) (by omega) m hm3

theorem popLoop_spec : ∀ (k : Nat) (h : MsgHeap), IsHeap h → k ≤ h.length →
    (popLoop h k).1.length = k ∧
    IsHeap (popLoop h k).2 ∧
    (∀ m ∈ (popLoop h k).1, m ∈ h) ∧
    (∀ m ∈ (popLoop h k).2, m ∈ h) ∧
    List.Pairwise (fun a b : Message => a.priority ≤ b.priority) (popLoop h k).1 := by
  intro k
  induction k with
  | zero =>
    intro h hh _
    exact ⟨rfl, hh, by simp [popLoop], by intro m hm; exact hm, by simp [popLoop]⟩
  | succ k ih =>
    intro h hh hk
    have hne : h.length ≠ 0 := by omega
    obtain ⟨hfst, hroot, hheap1, hlen1, hmem1⟩ := heapPop_spec h hne hh
    have hk1 : k ≤ (heapPop h).2.length := by omega
    obtain ⟨ihlen, ihheap, ihmem1, ihmem2, ihpair⟩ := ih (heapPop h).2 hheap1 hk1
    rw [popLoop]
    simp only
    refine ⟨by rw [List.length_cons, ihlen], ihheap, ?_, ?_, ?_⟩
    · intro m hm
      rcases List.mem_cons.mp hm with rfl | hm2
      · rw [hfst]
        exact hget_mem h 0 (by omega)
      · exact hmem1 m (ihmem1 m hm2)
    · intro m hm
      exact hmem1 m (ihmem2 m hm)
    · rw [List.pairwise_cons]
      refine ⟨?_, ihpair⟩
      intro b hb
      rw [hfst]
      exact hroot b (hmem1 b (ihmem1 b hb))

theorem upAux_heap : ∀ (fuel : Nat) (j : Nat) (h : MsgHeap) (n : Nat),
    j ≤ fuel → j < n → n ≤ h.length → UpInv h n j →
    IsHeapOn (upAux fuel h j) n := by
  intro fuel
  induction fuel with
  | zero =>
    intro j h n hfuel _ _ hinv
    intro c hc0 hcn
    exact hinv.1 c hc0 hcn (by omega)
  | succ fuel ih =>
    intro j h n hfuel hjn hlen hinv
    rw [upAux]
    by_cases hstop : (j - 1) / 2 = j ∨ ¬ hless h j ((j - 1) / 2) = true
    · rw [if_pos hstop]
      intro c hc0 hcn
      by_cases hcj : c = j
      · subst hcj
        rcases hstop with hjj | hge
        · omega
        · exact hless_false hge
      · exact hinv.1 c hc0 hcn hcj
    · rw [if_neg hstop]
      rw [not_or] at hstop
      obtain ⟨hij, hlt0⟩ := hstop
      rw [Decidable.not_not] at hlt0
      have hlt : (hget h j).priority < (hget h ((j-1)/2)).priority := hless_true hlt0
      have hj0 : 0 < j := by omega
      have hpj : (j-1)/2 < j := by omega
      have hjlen : j < h.length := by omega
      have hplen : (j-1)/2 < h.length := by omega
      apply ih _ _ _ (by omega) (by omega) (by rw [hswap_length]; exact hlen)
      constructor
      · intro c hc0 hcn hci
        by_cases hcj : c = j
        · subst hcj
          have hpc : (c-1)/2 = (c-1)/2 := rfl
          rw [hget_hswap_right h ((c-1)/2) c hjlen]
          rw [hget_hswap_left h ((c-1)/2) c hplen (by omega)]
          exact Nat.le_of_lt hlt
        · by_cases hpci : (c-1)/2 = (j-1)/2
          · have hcc : c = 2*((j-1)/2)+1 ∨ c = 2*((j-1)/2)+2 := by omega
            have hsib : c ≠ j := hcj
            rw [hpci]
            rw [hget_hswap_left h ((j-1)/2) j hplen (by omega)]
            rw [hget_hswap_other h ((j-1)/2) j c (by omega) (by omega)]
            have hold := hinv.1 c hc0 hcn hsib
            rw [hpci] at hold
            exact (Nat.le_of_lt hlt).trans hold
          · by_cases hpcj : (c-1)/2 = j
            · have hcc : c = 2*j+1 ∨ c = 2*j+2 := by omega
              rw [hpcj]
              rw [hget_hswap_right h ((j-1)/2) j hjlen]
              rw [hget_hswap_other h ((j-1)/2) j c (by omega) (by omega)]
              exact hinv.2 hj0 c hcn hcc
            · rw [hget_hswap_other h ((j-1)/2) j ((c-1)/2) (by omega) (by omega)]
              rw [hget_hswap_other h ((j-1)/2) j c (by omega) (by omega)]
              exact hinv.1 c hc0 hcn hcj
      · intro hi0 c hcn hcc
        have hpi : ((j-1)/2 - 1)/2 < (j-1)/2 := by omega
        rw [hget_hswap_other h ((j-1)/2) j (((j-1)/2 - 1)/2) (by omega) (by omega)]
        have hstep1 : (hget h (((j-1)/2 - 1)/2)).priority ≤ (hget h ((j-1)/2)).priority := by
          have := hinv.1 ((j-1)/2) hi0 (by omega) (by omega)
          exact this
        by_cases hcj : c = j
        · rw [hcj]
          rw [hget_hswap_right h ((j-1)/2) j hjlen]
          exact hstep1
        · have hcnei : c ≠ (j-1)/2 := by omega
          rw [hget_hswap_other h ((j-1)/2) j c (by omega) (by omega)]
          have hstep2 : (hget h ((j-1)/2)).priority ≤ (hget h c).priority := by
            have h0c : 0 < c := by omega
            have hedge := hinv.1 c h0c hcn hcj
            have hpc : (c-1)/2 = (j-1)/2 := by omega
            rw [hpc] at hedge
            exact hedge
          exact hstep1.trans hstep2

theorem heapPush_isHeap (h : MsgHeap) (m : Message) (hh : IsHeap h) :
    IsHeap (heapPush h m) := by
  have hlen : (heapPush h m).length = h.length + 1 := heapPush_length h m
  rw [IsHeap, hlen, heapPush, up]
  apply upAux_heap _ _ _ _ (Nat.le_refl _) (by omega)
    (by rw [List.length_append]; simp)
  constructor
  · intro c hc0 hcn hcj
    have hclt : c < h.length := by omega
    have hplt : (c-1)/2 < h.length := by omega
    have hg1 : hget (h ++ [m]) ((c-1)/2) = hget h ((c-1)/2) := by
      rw [hget, hget]
      exact List.getD_append _ _ _ _ hplt
    have hg2 : hget (h ++ [m]) c = hget h c := by
      rw [hget, hget]
      exact List.getD_append _ _ _ _ hclt
    rw [hg1, hg2]
    exact hh c hc0 hclt
  · intro hj0 c hcn hcc
    omega

theorem allgood_ainsert (bufs : Buffers) (t : String) (hp : MsgHeap)
    (hg : AllHeapsGood bufs) (hh : IsHeap hp) : AllHeapsGood (ainsert t hp bufs) := by
  intro p hmem
  rcases mem_ainsert t hp bufs p hmem with rfl | h2
  · exact hh
  · exact hg p h2

theorem isHeap_nil : IsHeap ([] : MsgHeap) := by
  intro j hj0 hjn
  simp at hjn

theorem lookupOrNew_good (bufs : Buffers) (t : String) (hg : AllHeapsGood bufs) :
    IsHeap (lookupOrNew bufs t).1 ∧ AllHeapsGood (lookupOrNew bufs t).2 := by
  rw [lookupOrNew]
  cases hl : alookup t bufs with
  | some hp =>
    exact ⟨hg (t, hp) (alookup_mem t bufs hp hl), hg⟩
  | none =>
    exact ⟨isHeap_nil, allgood_ainsert bufs t [] hg isHeap_nil⟩

theorem ingestStep_good (bufs : Buffers) (msg : Message) (hg : AllHeapsGood bufs) :
    AllHeapsGood (ingestStep bufs msg).2 := by
  obtain ⟨h1, h2⟩ := lookupOrNew_good bufs msg.topic hg
  rw [ingestStep]
  by_cases hlt : (lookupOrNew bufs msg.topic).1.length < MaxPrefetchItemCount
  · rw [if_pos hlt]
    exact allgood_ainsert _ _ _ h2 (heapPush_isHeap _ msg h1)
  · rw [if_neg hlt]
    exact h2

theorem processIngest_good :
    ∀ (batch : List Message) (bufs : Buffers), AllHeapsGood bufs →
      AllHeapsGood (processIngest bufs batch).2 := by
  intro batch
  induction batch with
  | nil => intro bufs hg; exact hg
  | cons msg rest ih =>
    intro bufs hg
    rw [processIngest]
    exact ih _ (ingestStep_good bufs msg hg)

theorem popCount_toNat (tHeap : MsgHeap) (req : GetItemsRequest) (hlim : 0 ≤ req.Limit) :
    0 ≤ popCount tHeap req ∧
    (popCount tHeap req).toNat = min tHeap.length (effLimit req).toNat ∧
    (popCount tHeap req).toNat ≤ tHeap.length := by
  have heff : 0 ≤ effLimit req := by
    rw [effLimit]
    split
    · rw [defaultDequeueLimitPerTopic]
      omega
    · exact hlim
  rw [popCount]
  omega

theorem processGetItems_good (bufs : Buffers) (req : GetItemsRequest)
    (res : GetItemsResponse) (bufs2 : Buffers) (hg : AllHeapsGood bufs)
    (hc : processGetItems bufs req = some (res, bufs2)) : AllHeapsGood bufs2 := by
  rw [processGetItems] at hc
  cases hl : alookup req.Topic bufs with
  | none =>
    rw [hl] at hc
    dsimp only at hc
    simp only [Option.some.injEq, Prod.mk.injEq] at hc
    rw [← hc.2]
    exact hg
  | some tHeap =>
    rw [hl] at hc
    dsimp only at hc
    by_cases hneg : popCount tHeap req < 0
    · rw [if_pos hneg] at hc
      cases hc
    · rw [if_neg hneg] at hc
      simp only [Option.some.injEq, Prod.mk.injEq] at hc
      rw [← hc.2]
      apply allgood_ainsert _ _ _ hg
      have hheap : IsHeap tHeap := hg (req.Topic, tHeap) (alookup_mem _ bufs tHeap hl)
      have hk : (popCount tHeap req).toNat ≤ tHeap.length := by
        rw [popCount]
        omega
      exact (popLoop_spec _ tHeap hheap hk).2.1

theorem reachable_good : ∀ bufs : Buffers, Reachable bufs → AllHeapsGood bufs := by
  intro bufs hr
  induction hr with
  | init => intro p hp; simp at hp
  | ingest bufs0 batch _ ih => exact processIngest_good batch bufs0 ih
  | getItems bufs0 req res bufs2 _ hc ih => exact processGetItems_good bufs0 req res bufs2 ih hc

/-- Claim C5: the claim fails as stated.  For a request whose `Limit` is
negative, `min(len(heap), limit)` is negative and `make([]Message, n)`
panics, so the call returns nothing rather than `min(|heap|, limit)`
messages: at buffers holding a two-message heap for topic "u" and a request
with `Limit = -2`, `processGetItems` aborts (modelled as `none`). -/
theorem claim_C5_counterexample :
    processGetItems [("u", [⟨1, "u", 5, 0, 0⟩, ⟨2, "u", 6, 0, 0⟩])]
      ⟨"ns", "u", -2⟩ = none := by
  decide

/-- Claim C5 (amended): for every reachable buffer state and every request
with nonnegative `Limit` on a topic whose heap exists, `processGetItems`
removes and returns exactly `min(|heap|, limit)` messages — where `limit` is
the request's `Limit` if nonzero and 20 otherwise — and the returned list is
sorted by ascending priority.  (A negative `Limit` panics in
`make([]Message, n)`; the claim holds for all other requests.) -/
theorem claim_C5_getitems_pop (bufs : Buffers) (req : GetItemsRequest) (tHeap : MsgHeap)
    (hr : Reachable bufs) (hl : alookup req.Topic bufs = some tHeap)
    (hlim : 0 ≤ req.Limit) :
    ∃ (res : GetItemsResponse) (bufs2 : Buffers),
      processGetItems bufs req = some (res, bufs2) ∧
      res.Messages.length = min tHeap.length (effLimit req).toNat ∧
      (∃ rest, alookup req.Topic bufs2 = some rest ∧
        rest.length = tHeap.length - res.Messages.length) ∧
      List.Pairwise (fun a b : Message => a.priority ≤ b.priority) res.Messages := by
  obtain ⟨hpc0, hknat, hkle⟩ := popCount_toNat tHeap req hlim
  have hheap : IsHeap tHeap := reachable_good bufs hr (req.Topic, tHeap)
    (alookup_mem _ bufs tHeap hl)
  obtain ⟨hplen, hpheap, hpmem1, hpmem2, hppair⟩ :=
    popLoop_spec (popCount tHeap req).toNat tHeap hheap hkle
  refine ⟨⟨(popLoop tHeap (popCount tHeap req).toNat).1⟩,
    ainsert req.Topic (popLoop tHeap (popCount tHeap req).toNat).2 bufs, ?_, ?_, ?_, ?_⟩
  · rw [processGetItems, hl]
    dsimp only
    rw [if_neg (by omega)]
  · rw [hplen, hknat]
  · refine ⟨(popLoop tHeap (popCount tHeap req).toNat).2, alookup_ainsert_self _ _ _, ?_⟩
    rw [popLoop_length, hplen]
  · exact hppair

/-- Witness for claim C5: ingest one message into the empty buffer, then a
`GetItems` with `Limit = 7` on its topic. -/
theorem claim_C5_witness :
    ∃ (res : GetItemsResponse) (bufs2 : Buffers),
      processGetItems (processIngest [] [⟨1, "t", 5, 0, 0⟩]).2 ⟨"ns", "t", 7⟩ =
        some (res, bufs2) ∧
      res.Messages.length =
        min ([⟨1, "t", 5, 0, 0⟩] : MsgHeap).length (effLimit ⟨"ns", "t", 7⟩).toNat ∧
      (∃ rest, alookup "t" bufs2 = some rest ∧
        rest.length = ([⟨1, "t", 5, 0, 0⟩] : MsgHeap).length - res.Messages.length) ∧
      List.Pairwise (fun a b : Message => a.priority ≤ b.priority) res.Messages :=
  claim_C5_getitems_pop (processIngest [] [⟨1, "t", 5, 0, 0⟩]).2 ⟨"ns", "t", 7⟩
    [⟨1, "t", 5, 0, 0⟩]
    (Reachable.ingest [] [⟨1, "t", 5, 0, 0⟩] Reachable.init)
    (by decide) (by decide)

/-- Claim C10: the claim fails as stated: `processGetItems` is not total for
a negative `Limit` when the topic's heap exists: `make([]Message, n)` with
negative `n` panics (modelled as `none`). -/
theorem claim_C10_counterexample :
    processGetItems [("t", [⟨1, "t", 5, 0, 0⟩])] ⟨"ns", "t", -1⟩ = none := by
  decide

/-- Claim C10 (amended): for every buffer state and every request with
nonnegative `Limit`, `processGetItems` terminates with a well-formed
response, and a request for a topic with no heap yields an empty message
list and leaves the buffers unchanged (no heap is created).  A request with
negative `Limit` on an existing heap panics in `make([]Message, n)`. -/
theorem claim_C10_getitems_total (bufs : Buffers) (req : GetItemsRequest)
    (hlim : 0 ≤ req.Limit) :
    (∃ out, processGetItems bufs req = some out) ∧
    (alookup req.Topic bufs = none →
      processGetItems bufs req = some (⟨[]⟩, bufs)) := by
  constructor
  · cases hl : alookup req.Topic bufs with
    | none =>
      refine ⟨(⟨[]⟩, bufs), ?_⟩
      rw [processGetItems, hl]
    | some tHeap =>
      obtain ⟨hpc0, _, _⟩ := popCount_toNat tHeap req hlim
      refine ⟨(⟨(popLoop tHeap (popCount tHeap req).toNat).1⟩,
        ainsert req.Topic (popLoop tHeap (popCount tHeap req).toNat).2 bufs), ?_⟩
      rw [processGetItems, hl]
      dsimp only
      rw [if_neg (by omega)]
  · intro hl
    rw [processGetItems, hl]

/-- Witness for claim C10: a request with `Limit = 3` on empty buffers. -/
theorem claim_C10_witness :
    (∃ out, processGetItems [] ⟨"ns", "t", 3⟩ = some out) ∧
    (alookup "t" ([] : Buffers) = none →
      processGetItems [] ⟨"ns", "t", 3⟩ = some (⟨[]⟩, [])) :=
  claim_C10_getitems_total [] ⟨"ns", "t", 3⟩ (by decide)

end Prefetch

namespace Queue

theorem ppr_eq : ∀ (reply : List Prefetch.PrefetchResponseStatus)
    (items : List Prefetch.Message), reply.length = items.length →
    processPrefetchResponse items reply =
      some (((items.zip reply).filter
          (fun p => p.2 == Prefetch.PrefetchResponseStatus.ok)).map (fun p => p.1.id),
        ((items.zip reply).filter
          (fun p => p.2 == Prefetch.PrefetchResponseStatus.backoff)).map (fun p => p.1.topic)) := by
  intro reply
  induction reply with
  | nil =>
    intro items _
    rw [processPrefetchResponse]
    simp
  | cons r rs ih =>
    intro items hlen
    cases items with
    | nil => simp at hlen
    | cons item its =>
      rw [processPrefetchResponse, ih its (by simpa using hlen)]
      cases r with
      | ok => simp [List.zip_cons_cons]
      | backoff => simp [List.zip_cons_cons]

/-- Claim C3: for a batch and a buffer reply of matching length (property 3
of the spec guarantees the buffer replies one status per element), the ids
collected for `UpdatePrefetchedBatch(shard, ids, true)` are exactly the ids
of the batch elements whose status was `OK`, in batch order; no id whose
status was `BACKOFF` appears among them (ids unique per the primary key);
and a nonempty batch commits exactly that set. -/
theorem claim_C3_commit_ok_only (items : List Prefetch.Message)
    (reply : List Prefetch.PrefetchResponseStatus)
    (hlen : reply.length = items.length)
    (hids : (items.map Prefetch.Message.id).Nodup) :
    ∃ ids ts, processPrefetchResponse items reply = some (ids, ts) ∧
      ids = ((items.zip reply).filter
        (fun p => p.2 == Prefetch.PrefetchResponseStatus.ok)).map (fun p => p.1.id) ∧
      (∀ p ∈ items.zip reply,
        p.2 = Prefetch.PrefetchResponseStatus.backoff → p.1.id ∉ ids) ∧
      (items ≠ [] → dequeueCommitIds items reply = some ids) := by
  refine ⟨_, _, ppr_eq reply items hlen, rfl, ?_, ?_⟩
  · intro p hp hpb hmem
    rcases List.mem_map.mp hmem with ⟨q, hq, hqid⟩
    have hqzip : q ∈ items.zip reply := List.mem_of_mem_filter hq
    have hqok : q.2 = Prefetch.PrefetchResponseStatus.ok := by
      have := List.of_mem_filter hq
      simpa using this
    rcases List.mem_iff_getElem.mp hqzip with ⟨iq, hiq, hq2⟩
    rcases List.mem_iff_getElem.mp hp with ⟨ip, hip, hp2⟩
    have hziplen : (items.zip reply).length = items.length := by
      rw [List.length_zip]
      omega
    have hiq2 : iq < items.length := by omega
    have hip2 : ip < items.length := by omega
    have hgq : q.1 = items[iq] := by
      rw [← hq2, List.getElem_zip]
    have hgp : p.1 = items[ip] := by
      rw [← hp2, List.getElem_zip]
    have heqm : q.1 = p.1 := by
      apply List.inj_on_of_nodup_map hids
      · rw [hgq]
        exact List.getElem_mem _
      · rw [hgp]
        exact List.getElem_mem _
      · exact hqid
    have hidx : iq = ip := by
      have : items[iq] = items[ip] := by
        rw [← hgq, ← hgp, heqm]
      exact (List.Nodup.getElem_inj_iff (List.Nodup.of_map _ hids)).mp this
    subst hidx
    rw [hq2] at hp2
    rw [hp2, hpb] at hqok
    cases hqok
  · intro hne
    rw [dequeueCommitIds, if_neg (by simpa using hne), ppr_eq reply items hlen]
    rfl

/-- Witness for claim C3: a two-message batch whose reply is OK then
BACKOFF. -/
theorem claim_C3_witness :
    ∃ ids ts, processPrefetchResponse
        [⟨1, "t", 5, 0, 0⟩, ⟨2, "t", 6, 0, 0⟩]
        [Prefetch.PrefetchResponseStatus.ok, Prefetch.PrefetchResponseStatus.backoff] =
        some (ids, ts) ∧
      ids = ((([⟨1, "t", 5, 0, 0⟩, ⟨2, "t", 6, 0, 0⟩] : List Prefetch.Message).zip
          [Prefetch.PrefetchResponseStatus.ok, Prefetch.PrefetchResponseStatus.backoff]).filter
        (fun p => p.2 == Prefetch.PrefetchResponseStatus.ok)).map (fun p => p.1.id) ∧
      (∀ p ∈ ([⟨1, "t", 5, 0, 0⟩, ⟨2, "t", 6, 0, 0⟩] : List Prefetch.Message).zip
          [Prefetch.PrefetchResponseStatus.ok, Prefetch.PrefetchResponseStatus.backoff],
        p.2 = Prefetch.PrefetchResponseStatus.backoff → p.1.id ∉ ids) ∧
      (([⟨1, "t", 5, 0, 0⟩, ⟨2, "t", 6, 0, 0⟩] : List Prefetch.Message) ≠ [] →
        dequeueCommitIds [⟨1, "t", 5, 0, 0⟩, ⟨2, "t", 6, 0, 0⟩]
          [Prefetch.PrefetchResponseStatus.ok, Prefetch.PrefetchResponseStatus.backoff] =
          some ids) :=
  claim_C3_commit_ok_only [⟨1, "t", 5, 0, 0⟩, ⟨2, "t", 6, 0, 0⟩]
    [Prefetch.PrefetchResponseStatus.ok, Prefetch.PrefetchResponseStatus.backoff]
    (by decide) (by decide)

end Queue

/-- Claim C6: `ParseUUID` of `UUID.String` returns the original sixteen-byte
identifier, and the shard id of a freshly generated `NewUUID(s)` is `s`.  The
first conjunct holds for every byte-valid 16-byte identifier; the second for
every 32-bit shard id and any generated xid component. -/
theorem claim_C6_uuid_roundtrip (u : Domain.UUID) (hlen : List.length u = 16)
    (hb : ∀ x ∈ u, x < 256) (s : Nat) (hs : s < 2^32) (xb : List Nat) :
    Domain.ParseUUID (Domain.uuidString u) = some u ∧
      Domain.ShardId (Domain.NewUUID s xb) = s := by
  constructor
  · rcases u with _ | ⟨a0, u⟩; · simp at hlen
    rcases u with _ | ⟨a1, u⟩; · simp at hlen
    rcases u with _ | ⟨a2, u⟩; · simp at hlen
    rcases u with _ | ⟨a3, u⟩; · simp at hlen
    rcases u with _ | ⟨a4, u⟩; · simp at hlen
    rcases u with _ | ⟨a5, u⟩; · simp at hlen
    rcases u with _ | ⟨a6, u⟩; · simp at hlen
    rcases u with _ | ⟨a7, u⟩; · simp at hlen
    rcases u with _ | ⟨a8, u⟩; · simp at hlen
    rcases u with _ | ⟨a9, u⟩; · simp at hlen
    rcases u with _ | ⟨a10, u⟩; · simp at hlen
    rcases u with _ | ⟨a11, u⟩; · simp at hlen
    rcases u with _ | ⟨a12, u⟩; · simp at hlen
    rcases u with _ | ⟨a13, u⟩; · simp at hlen
    rcases u with _ | ⟨a14, u⟩; · simp at hlen
    rcases u with _ | ⟨a15, u⟩; · simp at hlen
    rcases u with _ | ⟨a16, u⟩
    swap
    · exfalso
      simp [List.length_cons] at hlen
    simp only [List.mem_cons, List.not_mem_nil] at hb
    have c0 : a0 < 256 := hb a0 (by tauto)
    have c1 : a1 < 256 := hb a1 (by tauto)
    have c2 : a2 < 256 := hb a2 (by tauto)
    have c3 : a3 < 256 := hb a3 (by tauto)
    have c4 : a4 < 256 := hb a4 (by tauto)
    have c5 : a5 < 256 := hb a5 (by tauto)
    have c6 : a6 < 256 := hb a6 (by tauto)
    have c7 : a7 < 256 := hb a7 (by tauto)
    have c8 : a8 < 256 := hb a8 (by tauto)
    have c9 : a9 < 256 := hb a9 (by tauto)
    have c10 : a10 < 256 := hb a10 (by tauto)
    have c11 : a11 < 256 := hb a11 (by tauto)
    have c12 : a12 < 256 := hb a12 (by tauto)
    have c13 : a13 < 256 := hb a13 (by tauto)
    have c14 : a14 < 256 := hb a14 (by tauto)
    have c15 : a15 < 256 := hb a15 (by tauto)
    have htake : List.take 4
        [a0, a1, a2, a3, a4, a5, a6, a7, a8, a9, a10, a11, a12, a13, a14, a15] =
        [a0, a1, a2, a3] := rfl
    have hdrop : List.drop 4
        [a0, a1, a2, a3, a4, a5, a6, a7, a8, a9, a10, a11, a12, a13, a14, a15] =
        [a4, a5, a6, a7, a8, a9, a10, a11, a12, a13, a14, a15] := rfl
    have hsid : Domain.ShardId
        [a0, a1, a2, a3, a4, a5, a6, a7, a8, a9, a10, a11, a12, a13, a14, a15] =
        Domain.beUint32 [a0, a1, a2, a3] := by
      rw [Domain.ShardId, htake]
    have hslt : Domain.beUint32 [a0, a1, a2, a3] < 2^32 :=
      Domain.beUint32_lt a0 a1 a2 a3 c0 c1 c2 c3
    rw [Domain.uuidString, hsid, hdrop]
    rw [Domain.ParseUUID,
      Domain.splitOnDash_append _ _ (Domain.natDecChars_no_dash _) (Domain.xidChars_no_dash _)]
    have hg := Domain.goAtoi_natDecChars (Domain.beUint32 [a0, a1, a2, a3])
    have hx := Domain.xidDecode_xidChars a4 a5 a6 a7 a8 a9 a10 a11 a12 a13 a14 a15
      c4 c5 c6 c7 c8 c9 c10 c11 c12 c13 c14 c15
    simp only [hg, hx]
    rw [Nat.mod_eq_of_lt hslt]
    rw [Domain.bePutUint32_beUint32 a0 a1 a2 a3 c0 c1 c2 c3]
    rfl
  · rw [Domain.NewUUID, Domain.ShardId]
    rw [List.take_left' (show (Domain.bePutUint32 s).length = 4 from rfl)]
    exact Domain.beUint32_bePutUint32 s hs

/-- Witness for claim C6: the all-zero identifier round-trips through
`String`/`ParseUUID`, and a concrete `NewUUID` carries its shard id. -/
theorem claim_C6_witness :
    Domain.ParseUUID (Domain.uuidString (List.replicate 16 0)) = some (List.replicate 16 0) ∧
      Domain.ShardId (Domain.NewUUID 7 [1, 2, 3, 4, 5, 6, 7, 8, 9, 10, 11, 12]) = 7 :=
  claim_C6_uuid_roundtrip (List.replicate 16 0) (by decide) (by decide) 7 (by norm_num)
    [1, 2, 3, 4, 5, 6, 7, 8, 9, 10, 11, 12]

/-- Claim C7: the claim states `Active()` is true exactly when the current
time is before `nextActivation`.  The code returns
`time.Now().After(s.nextActivation)`, which is false in that situation: at a
state whose `nextActivation` lies strictly in the future, `Active` returns
false while the claim requires true. -/
theorem claim_C7_counterexample :
    ¬ ((Wait.BackoffStrategy.Active ⟨0, 0, 0, 10⟩ 0 = true) ↔ (0 : Int) < 10) := by
  decide

/-- Claim C7 (amended): `Active()` returns true if and only if the current
time is strictly after `nextActivation`; per the method's own comment it means
"the backoff timeout is expired and it's ok to proceed", not that the backoff
is still live.  (The dequeue worker accordingly excludes a topic while
`Active()` is false.) -/
theorem claim_C7_active_iff_expired (s : Wait.BackoffStrategy) (now : Int) :
    s.Active now = true ↔ s.nextActivation < now := by
  simp [Wait.BackoffStrategy.Active]

/-- Claim C8: the claim states that each `Backoff()` call sets the current
delay to exactly `min(cap, base + currentDelay * factor)`.  The code computes
`time.Duration(float32(s.duration) * s.factor)` in float32, which is inexact
once the duration exceeds 2^24 nanoseconds: at `base = 1`, `cap = 10^18`,
`factor = 2` and `duration = 2^24 + 1 = 16777217`, the conversion
`float32(16777217)` rounds to `16777216`, so the code yields
`1 + 33554432 = 33554433` while the claimed exact formula gives
`1 + 33554434 = 33554435`. -/
theorem claim_C8_counterexample :
    ¬ ((Wait.BackoffStrategy.Backoff ⟨1, 1000000000000000000, 16777217, 0⟩ (2, 0) 0).duration =
        min 1000000000000000000 (1 + 16777217 * 2)) := by
  decide

set_option maxRecDepth 8192 in
/-- Claim C8 (amended): each `Backoff()` call sets the duration to
`min(cap, base + time.Duration(float32(duration) * factor))` where the
multiplication is carried out in IEEE 754 binary32 arithmetic
(round-to-nearest-even, then truncation toward zero), and sets
`nextActivation` to `now + duration`; the updated duration never exceeds the
cap; `Reset()` returns the duration to zero and `nextActivation` to now; and
with the production constants of pkg/queue/queue.go (base 10ms = 10^7 ns,
factor 2, cap 5s = 5 * 10^9 ns) the claimed closed form
`min(cap, base * (factor^N - 1) / (factor - 1))` does hold exactly for every
`N`, because float32 rounding of each iterate happens to leave the clamped
trajectory unchanged. -/
theorem claim_C8_backoff_recurrence :
    (∀ (s : Wait.BackoffStrategy) (f : Int × Int) (now : Int),
        (s.Backoff f now).duration =
          min s.durationCap
            (s.initialDuration +
              Wait.f32toInt64 (Wait.f32mulD (Wait.f32ofInt64 s.duration) f)) ∧
        (s.Backoff f now).nextActivation = now + (s.Backoff f now).duration) ∧
    (∀ (s : Wait.BackoffStrategy) (f : Int × Int) (now : Int),
        (s.Backoff f now).duration ≤ s.durationCap) ∧
    (∀ (s : Wait.BackoffStrategy) (now : Int),
        (s.Reset now).duration = 0 ∧ (s.Reset now).nextActivation = now) ∧
    (∀ N : Nat,
        Wait.backoffIter 10000000 5000000000 (2, 0) N =
          min 5000000000 (10000000 * ((2 : Int) ^ N - 1) / (2 - 1))) := by
  refine ⟨?_, ?_, ?_, ?_⟩
  · intro s f now
    refine ⟨?_, rfl⟩
    show Wait.backoffDuration s.initialDuration s.durationCap f s.duration = _
    unfold Wait.backoffDuration
    split <;> omega
  · intro s f now
    show Wait.backoffDuration s.initialDuration s.durationCap f s.duration ≤ _
    unfold Wait.backoffDuration
    split <;> omega
  · intro s now
    exact ⟨rfl, rfl⟩
  · have base9 : Wait.backoffIter 10000000 5000000000 (2, 0) 9 = 5000000000 := by decide
    have stepfix :
        Wait.backoffDuration 10000000 5000000000 (2, 0) 5000000000 = 5000000000 := by decide
    have hiter : ∀ N : Nat, 9 ≤ N →
        Wait.backoffIter 10000000 5000000000 (2, 0) N = 5000000000 := by
      intro N hN
      induction N with
      | zero => omega
      | succ n ih =>
        rcases Nat.lt_or_ge n 9 with h9 | h9
        · have h : n + 1 = 9 := by omega
          rw [h]
          exact base9
        · have hn := ih h9
          show Wait.backoffDuration 10000000 5000000000 (2, 0)
              (Wait.backoffIter 10000000 5000000000 (2, 0) n) = 5000000000
          rw [hn]
          exact stepfix
    have hpow : ∀ N : Nat, 9 ≤ N → (512 : Int) ≤ 2 ^ N := by
      intro N hN
      induction N with
      | zero => omega
      | succ n ih =>
        rcases Nat.lt_or_ge n 9 with h9 | h9
        · have h : n + 1 = 9 := by omega
          rw [h]
          norm_num
        · have h512 := ih h9
          rw [pow_succ]
          omega
    intro N
    rcases Nat.lt_or_ge N 9 with h | h
    · interval_cases N <;> decide
    · rw [hiter N h]
      have h512 := hpow N h
      omega

/-- Claim C9: the claim states that after any sequence of successful `Add`
calls the shard ids are pairwise unique and exactly one shard is main.
`Add` performs no duplicate or main-uniqueness check: two successful
`Add(1, true, _)` calls produce a manager whose shard list has a repeated id
and two main shards. -/
theorem claim_C9_counterexample :
    ¬ (((Db.applyAdds Db.ShardManager.empty
          [⟨1, true, "a"⟩, ⟨1, true, "b"⟩]).shards.map Db.ShardMeta.Id).Nodup ∧
       ((Db.applyAdds Db.ShardManager.empty
          [⟨1, true, "a"⟩, ⟨1, true, "b"⟩]).shards.countP (·.main)) = 1) := by
  decide

/-- Claim C9 (amended): if the shard ids of a sequence of successful `Add`
calls are pairwise distinct and exactly one of the calls has `main = true`,
then the resulting manager state has pairwise-unique shard ids and exactly one
main shard.  (The code itself enforces no uniqueness; the invariant holds only
for well-formed call sequences, such as the fixed startup configuration.) -/
theorem claim_C9_unique_ids_one_main (calls : List Db.AddCall)
    (hids : (calls.map Db.AddCall.shardId).Nodup)
    (hmain : calls.countP (·.main) = 1) :
    (((Db.applyAdds Db.ShardManager.empty calls).shards.map Db.ShardMeta.Id).Nodup ∧
     ((Db.applyAdds Db.ShardManager.empty calls).shards.countP (·.main)) = 1) := by
  rw [Db.applyAdds_shards]
  constructor
  · have : (List.map Db.ShardMeta.Id (List.map Db.AddCall.meta calls)) =
        calls.map Db.AddCall.shardId := by
      rw [List.map_map]
      rfl
    simpa [Db.ShardManager.empty, this] using hids
  · have : (List.map Db.AddCall.meta calls).countP (·.main) = calls.countP (·.main) := by
      rw [List.countP_map]
      rfl
    simpa [Db.ShardManager.empty, this] using hmain

/-- Witness for claim C9 at a concrete two-call sequence. -/
theorem claim_C9_witness :
    (((Db.applyAdds Db.ShardManager.empty
        [⟨1, true, "a"⟩, ⟨2, false, "b"⟩]).shards.map Db.ShardMeta.Id).Nodup ∧
     ((Db.applyAdds Db.ShardManager.empty
        [⟨1, true, "a"⟩, ⟨2, false, "b"⟩]).shards.countP (·.main)) = 1) :=
  claim_C9_unique_ids_one_main [⟨1, true, "a"⟩, ⟨2, false, "b"⟩] (by decide) (by decide)

end DQ
